import Mathlib

/-!
Verification of the Noxy compiler (src/compiler.py) against its
natural-language specification.  Each component-specific namespace
shallowly embeds the part of the compiler a claim is about — the lexer's
scanning loops, the module resolver's dependency closure, and several
lowering branches of the LLVM code generator — and the theorems at the end
of the file prove or refute the claims over that embedding.  Machine
integers are modelled as Int/Nat (overflow never matters for the
properties at hand); fallible code returns Except or Option.
-/

set_option maxRecDepth 8192

namespace Noxy

/-- The Noxy type language (the `Type` dataclass hierarchy of compiler.py:
IntType, FloatType, StringType, StrType, ArrayType, VoidType, FunctionType,
BoolType, NullType, StructType, ReferenceType). -/
inductive NTy where
  | intT : NTy
  | floatT : NTy
  | stringT : NTy
  | strT : NTy
  | voidT : NTy
  | nullT : NTy
  | boolT : NTy
  | arrayT (elem : NTy) (size : Option Nat) : NTy
  | functionT (params : List NTy) (ret : NTy) : NTy
  | structT (name : String) (fields : List (String × NTy)) : NTy
  | refT (target : NTy) (isMutable : Bool) : NTy

/-- Python's `type(x)`: the constructor tag of a Noxy type, used by
`_declare_global_variable` in `type(existing_type) != type(node.var_type)`. -/
def NTy.tag : NTy → Nat
  | .intT => 0
  | .floatT => 1
  | .stringT => 2
  | .strT => 3
  | .voidT => 4
  | .nullT => 5
  | .boolT => 6
  | .arrayT _ _ => 7
  | .functionT _ _ => 8
  | .structT _ _ => 9
  | .refT _ _ => 10

namespace Codegen

/-- An LLVM-level SSA value as manipulated by `LLVMCodeGenerator`.
`i64`/`f64`/`i1`/`i8ptr` mirror `self.int_type`, `self.float_type`,
`self.bool_type` and `self.string_type = i8*`.  The payload of `f64` is an
abstract carrier: no claim below depends on floating-point arithmetic. -/
inductive IRVal where
  | i64 (n : Int) : IRVal
  | f64 (x : Int) : IRVal
  | i1 (b : Bool) : IRVal
  | i8ptr (p : Nat) : IRVal
  deriving Repr, DecidableEq

/-- The `fptosi` builder call (float to signed int).  Its numeric behaviour
is irrelevant to every claim; it is kept abstract as the identity on the
abstract float payload. -/
def fptosi (x : Int) : Int := x

/-- The `CastNode` branch of `_generate_expression` for `target_type`
`IntType` (compiler.py lines 4267..4277): a double is converted via
`fptosi`; a string (`i8*`, whether compared against `self.string_type` or
recognised as a pointer to `char_type`) yields the constant integer 0
("Por simplicidade, vamos retornar 0"); anything else is returned as is. -/
def genCastToInt (v : IRVal) : IRVal :=
  match v with
  | .f64 x => .i64 (fptosi x)
  | .i8ptr _ => .i64 0
  | v => v

/-- Truthification as emitted before logical ops: values that are not
already `bool_type` go through `icmp_ne v 0`. -/
def truthify (v : IRVal) : Bool :=
  match v with
  | .i1 b => b
  | .i64 n => decide (n ≠ 0)
  | .f64 x => decide (x ≠ 0)
  | .i8ptr p => decide (p ≠ 0)

/-- A Noxy expression as lowered for the logical operators, with an
observable-effect constructor standing for any sub-expression whose emitted
code has side effects (e.g. a call).  `lit`/`boolLit` are `NumberNode` /
`BooleanNode` constants. -/
inductive LExpr where
  | lit (n : Int) : LExpr
  | boolLit (b : Bool) : LExpr
  | effectful (id : Nat) (v : Int) : LExpr
  | binAnd (l r : LExpr) : LExpr
  | binOr (l r : LExpr) : LExpr
  deriving Repr, DecidableEq

/-- Execution of the code `_generate_expression` emits for an `LExpr`,
with the trace of executed side effects.  For `BinaryOpNode` with
`TokenType.AND`/`OR` (compiler.py lines 5099..5118) the generator first
emits the code of `node.left`, then unconditionally the code of
`node.right` (both operands are generated at the top of the branch, before
the operator dispatch), truthifies each operand that is not already `i1`,
and combines them with a bitwise `and_`/`or_` instruction; the emitted
code is straight-line, so running it runs both operands' effects. -/
def evalL : LExpr → List Nat → List Nat × IRVal
  | .lit n, log => (log, .i64 n)
  | .boolLit b, log => (log, .i1 b)
  | .effectful id v, log => (log ++ [id], .i64 v)
  | .binAnd l r, log =>
      let lr := evalL l log
      let rr := evalL r lr.1
      (rr.1, .i1 (truthify lr.2 && truthify rr.2))
  | .binOr l r, log =>
      let lr := evalL l log
      let rr := evalL r lr.1
      (rr.1, .i1 (truthify lr.2 || truthify rr.2))

/-- The effect trace of an expression run from the empty log. -/
def traceL (e : LExpr) : List Nat := (evalL e []).1

/-- The value an expression lowers to. -/
def valueL (e : LExpr) : IRVal := (evalL e []).2

end Codegen

namespace Mem

/-- The generator's allocation-tracking state while synthesizing `main`:
the fixed 100-slot global `allocation_array` (pointer contents indexed by
slot) and the `allocation_count` counter, initialised to 0 on entry. -/
structure LedgerSt where
  slots : Nat → Nat
  count : Nat

/-- The initial state stored at the top of `main`: counter 0, array
zero-initialised. -/
def ledgerInit : LedgerSt := { slots := fun _ => 0, count := 0 }

/-- `_track_allocation` (compiler.py lines 2175..2198), in the `main`
synthesis path where `allocation_array` exists: the pointer is stored at
index `allocation_count` of the array (gep `[0, count]` then store) and the
counter is then incremented. -/
def trackAllocation (st : LedgerSt) (p : Nat) : LedgerSt :=
  { slots := fun i => if i = st.count then p else st.slots i,
    count := st.count + 1 }

/-- Tracking a whole sequence of mallocs in order. -/
def trackAll (st : LedgerSt) (ps : List Nat) : LedgerSt :=
  ps.foldl trackAllocation st

/-- The pointers freed by the cleanup loop `_add_memory_cleanup` emits
(compiler.py lines 2200..2253): `i` starts at 0 and, while `i < count`,
the loop loads `allocation_array[i]`, calls `free` on it and increments
`i`.  The result lists the freed pointers in loop order. -/
def cleanupLoop (slots : Nat → Nat) (count : Nat) (i : Nat) : List Nat :=
  if _h : i < count then slots i :: cleanupLoop slots count (i + 1) else []
termination_by count - i

/-- The free calls emitted before `main` returns. -/
def cleanupFrees (st : LedgerSt) : List Nat :=
  cleanupLoop st.slots st.count 0

end Mem

namespace StrPlus

/-- The runtime heap as far as the generated string code observes it: a
sequence of malloc'd buffers (byte contents), addressed by allocation
index. -/
structure Heap where
  bufs : List (List Nat)

/-- `malloc n`: a fresh buffer of `n` bytes; returns the new heap and the
pointer (the fresh allocation index).  Contents are left as zero bytes;
nothing below depends on the initial contents. -/
def mallocH (h : Heap) (n : Nat) : Heap × Nat :=
  ({ bufs := h.bufs ++ [List.replicate n 0] }, h.bufs.length)

/-- The C-visible contents of a byte sequence: everything before the first
null byte. -/
def cstr (s : List Nat) : List Nat := s.takeWhile (fun b => decide (b ≠ 0))

/-- `strlen`. -/
def strlenM (s : List Nat) : Nat := (cstr s).length

/-- Overwrite `data.length` bytes of `buf` starting at offset `off`. -/
def writeAt (buf : List Nat) (off : Nat) (data : List Nat) : List Nat :=
  buf.take off ++ data ++ buf.drop (off + data.length)

/-- The buffer a pointer refers to. -/
def bufAt (h : Heap) (p : Nat) : List Nat := h.bufs.getD p []

/-- Replace the buffer at `p`. -/
def setBuf (h : Heap) (p : Nat) (b : List Nat) : Heap := { bufs := h.bufs.set p b }

/-- `strcpy(dest, src)` where the source string's bytes are `src`. -/
def strcpyH (h : Heap) (dest : Nat) (src : List Nat) : Heap :=
  setBuf h dest (writeAt (bufAt h dest) 0 (cstr src ++ [0]))

/-- `strcat(dest, src)`: append at the current null terminator of `dest`. -/
def strcatH (h : Heap) (dest : Nat) (src : List Nat) : Heap :=
  setBuf h dest (writeAt (bufAt h dest) (strlenM (bufAt h dest)) (cstr src ++ [0]))

/-- An operand value of the `+` lowering: `i64`, abstract `f64`, or a
string pointer carrying its byte contents. -/
inductive POperand where
  | i64 (n : Int) : POperand
  | f64 (x : Int) : POperand
  | str (bytes : List Nat) : POperand
  deriving Repr, DecidableEq

/-- `isinstance(v.type, ir.DoubleType)`. -/
def POperand.isF64 : POperand → Bool
  | .f64 _ => true
  | _ => false

/-- `v.type` is `i8*` (pointer to `char_type`, which is also
`self.string_type`). -/
def POperand.isStr : POperand → Bool
  | .str _ => true
  | _ => false

/-- `sitofp`, kept abstract as the identity into the abstract float
payload. -/
def sitofp (n : Int) : Int := n

/-- The int-to-float promotion at the top of the `BinaryOpNode` branch
(compiler.py lines 4963..4971): when either side is a double, integer
operands are converted via `sitofp`. -/
def promoteP (isFloatOp : Bool) (op : POperand) : POperand :=
  match isFloatOp, op with
  | true, .i64 n => .f64 (sitofp n)
  | _, o => o

/-- Abstract payload addition for the non-string result cases. -/
def iaddP : POperand → POperand → Int
  | .i64 a, .i64 b => a + b
  | _, _ => 0

/-- Abstract payload addition for the float result case. -/
def faddP : POperand → POperand → Int
  | .f64 a, .f64 b => a + b
  | _, _ => 0

/-- The result of lowering a `+`. -/
inductive PlusRes where
  | val (v : POperand) : PlusRes
  | concatPtr (p : Nat) : PlusRes
  deriving Repr, DecidableEq

/-- Heap, allocation ledger and result after lowering a `+`. -/
structure GenOut where
  heap : Heap
  ledger : Mem.LedgerSt
  res : PlusRes

/-- The `TokenType.PLUS` branch of `_generate_expression` for
`BinaryOpNode` (compiler.py lines 4974..5005), after both operands have
been generated and promoted: if at least one operand is a string then both
must be — otherwise a TypeError is raised — and for two strings the code
emits `strlen(left)`, `strlen(right)`, `malloc(len1+len2+1)`,
`_track_allocation(result)`, `strcpy(result, left)`,
`strcat(result, right)` and returns the fresh pointer; otherwise a plain
`fadd`/`add` is emitted. -/
def genPlus (heap : Heap) (ledger : Mem.LedgerSt) (l r : POperand) :
    Except String GenOut :=
  let isFloatOp := l.isF64 || r.isF64
  let left := promoteP isFloatOp l
  let right := promoteP isFloatOp r
  if left.isStr || right.isStr then
    if ¬ (left.isStr && right.isStr) then
      .error "Operacao + para strings requer que ambos os operandos sejam strings. Use to_str() para converter numeros para string."
    else
      match left, right with
      | .str a, .str b =>
          let len1 := strlenM a
          let len2 := strlenM b
          let total := len1 + len2 + 1
          let m := mallocH heap total
          let ledger1 := Mem.trackAllocation ledger m.2
          let h2 := strcpyH m.1 m.2 a
          let h3 := strcatH h2 m.2 b
          .ok { heap := h3, ledger := ledger1, res := .concatPtr m.2 }
      | _, _ =>
          -- unreachable: guarded by the conjunction check above
          .error "unreachable"
  else if isFloatOp then
    .ok { heap := heap, ledger := ledger, res := .val (.f64 (faddP left right)) }
  else
    .ok { heap := heap, ledger := ledger, res := .val (.i64 (iaddP left right)) }

end StrPlus

namespace Decl

/-- A top-level statement as the global-declaration loop of
`LLVMCodeGenerator.generate` sees it (compiler.py lines 2063..2071): a
global `AssignmentNode` carries its identifier and declared type (`none`
when the declaration carries no annotation); every other statement shape
is irrelevant to the loop. -/
inductive GStmt where
  | glet (name : String) (ty : Option NTy) : GStmt
  | other : GStmt

/-- Declaration-phase generator state: `self.global_vars` (names that
have an LLVM global declared) and `self.type_map`. -/
structure DeclSt where
  global_vars : List String
  type_map : List (String × NTy)

/-- `self.type_map.get(name)`; entries are prepended on update, so the
head-most binding is the current one. -/
def lookupTy (m : List (String × NTy)) (n : String) : Option NTy :=
  (m.find? (fun kv => kv.1 = n)).map (fun kv => kv.2)

/-- `_declare_global_variable` (compiler.py lines 2357..2397).  If the
identifier is already registered: with both the existing and the new
declared type present and of different constructor (`type(a) != type(b)`),
raise; if only the new one is present, record it; in all other cases
return without redeclaring.  Otherwise convert the declared type
(`_convert_type(None)` raises) and register the global with a neutral
initializer. -/
def declareGlobalVariable (st : DeclSt) (name : String) (varTy : Option NTy) :
    Except String DeclSt :=
  if name ∈ st.global_vars then
    match lookupTy st.type_map name, varTy with
    | some ex, some t =>
        if ex.tag ≠ t.tag then
          .error "Redeclaracao de global com tipo diferente"
        else .ok st
    | none, some t => .ok { st with type_map := (name, t) :: st.type_map }
    | _, none => .ok st
  else
    match varTy with
    | none => .error "Tipo nao suportado: None"
    | some t => .ok { global_vars := name :: st.global_vars,
                      type_map := (name, t) :: st.type_map }

/-- The global-declaration pass of `generate` (compiler.py lines
2063..2071): iterate the top-level statements; a global assignment whose
identifier is already in `declared_globals` is skipped with `continue`,
otherwise the identifier is added and `_declare_global_variable` runs. -/
def declLoop (stmts : List GStmt) (declared : List String) (st : DeclSt) :
    Except String (List String × DeclSt) :=
  match stmts with
  | [] => .ok (declared, st)
  | .glet name ty :: rest =>
      if name ∈ declared then declLoop rest declared st
      else
        match declareGlobalVariable st name ty with
        | .error e => .error e
        | .ok st1 => declLoop rest (name :: declared) st1
  | .other :: rest => declLoop rest declared st

/-- Empty declaration-phase state. -/
def declInit : DeclSt := { global_vars := [], type_map := [] }

/-- The whole declaration phase over the program's top-level statements. -/
def declPhase (stmts : List GStmt) : Except String (List String × DeclSt) :=
  declLoop stmts [] declInit

/-- Claim C5 as stated: a program whose top level declares the same
global identifier twice with conflicting declared types makes the
declaration phase report an error. -/
def ClaimC5Prop : Prop :=
  ∀ (pre mid post : List GStmt) (name : String) (t1 t2 : NTy),
    t1.tag ≠ t2.tag →
    ∃ msg, declPhase (pre ++ .glet name (some t1) :: mid ++ .glet name (some t2) :: post)
      = .error msg

end Decl

namespace Lex

/-- Lexer scanning state: `self.position`, `self.line`, `self.column`. -/
structure LexSt where
  pos : Nat
  line : Nat
  col : Nat
  deriving Repr, DecidableEq

/-- `Lexer._advance` (compiler.py lines 232..238): position always moves
one character; a newline bumps the line and resets the column to 1, any
other (or no) character bumps the column. -/
def advance (src : List Char) (s : LexSt) : LexSt :=
  { pos := s.pos + 1,
    line := if src[s.pos]? = some '\n' then s.line + 1 else s.line,
    col := if src[s.pos]? = some '\n' then 1 else s.col + 1 }

/-- The escape-sequence table shared by `_read_string` and
`_read_fstring`: recognised escapes map to control characters, unknown
escapes pass the character through. -/
def unescape (c : Char) : Char :=
  if c = 'n' then '\n'
  else if c = 't' then '\t'
  else if c = '"' then '"'
  else if c = '\\' then '\\'
  else if c = '0' then Char.ofNat 0
  else c

/-- The character-consuming loop of `_read_string` (compiler.py lines
257..275): while in bounds and the current character is not the closing
quote, either process an escape (skip the backslash, translate the next
character if any) or append the character; every step advances. -/
def readStringLoop (src : List Char) (s : LexSt) (acc : List Char) :
    List Char × LexSt :=
  if h : s.pos < src.length then
    let c := src.get ⟨s.pos, h⟩
    if c = '"' then (acc, s)
    else if c = '\\' then
      let s1 := advance src s
      if h1 : s1.pos < src.length then
        readStringLoop src (advance src s1) (acc ++ [unescape (src.get ⟨s1.pos, h1⟩)])
      else readStringLoop src s1 acc
    else readStringLoop src (advance src s) (acc ++ [c])
  else (acc, s)
termination_by src.length - s.pos
decreasing_by
  all_goals simp [advance]
  all_goals omega

/-- A STRING token: lexeme value plus the recorded `(line, column)`. -/
structure STok where
  value : List Char
  line : Nat
  column : Nat
  deriving Repr, DecidableEq

/-- `_read_string` (compiler.py lines 252..288): remember the starting
column, skip the opening quote, run the consuming loop; if the closing
quote is in bounds, advance past it and append
`Token(STRING, value, self.line, start_column)` — `self.line` being the
line counter at that moment — otherwise raise the unterminated-string
syntax error. -/
def readString (src : List Char) (s : LexSt) : Except String (STok × LexSt) :=
  let startColumn := s.col
  let r := readStringLoop src (advance src s) []
  if r.2.pos < src.length then
    let s2 := advance src r.2
    .ok ({ value := r.1, line := s2.line, column := startColumn }, s2)
  else .error "String nao terminada - esperado aspas"

/-- Number of newline characters in `src` at positions `[a, b)`. -/
def countNL (src : List Char) (a b : Nat) : Nat :=
  (((src.drop a).take (b - a)).filter (fun c => c = '\n')).length

/-- Claim C7 as stated, restricted to the cited `_read_string` path: the
token records the line and column of the first character of its lexeme. -/
def ClaimC7Prop : Prop :=
  ∀ (src : List Char) (s : LexSt) (tok : STok) (s2 : LexSt),
    readString src s = .ok (tok, s2) → tok.line = s.line ∧ tok.column = s.col

/-- The expression-scanning loop of `_read_fstring` (compiler.py lines
306..317): starting just after the opening brace with `brace_count = 1`,
every step looks at the current character, bumps the depth on an opening
brace and drops it on a closing brace, appends the character to the
expression text only while the updated depth stays positive, and
advances; the loop stops when the depth reaches zero or input ends. -/
def scanExpr (src : List Char) (s : LexSt) (bc : Nat) (acc : List Char) :
    List Char × LexSt × Nat :=
  if h : s.pos < src.length ∧ 0 < bc then
    let c := src.get ⟨s.pos, h.1⟩
    let bc1 := if c = '{' then bc + 1 else if c = '}' then bc - 1 else bc
    let acc1 := if 0 < bc1 then acc ++ [c] else acc
    scanExpr src (advance src s) bc1 acc1
  else (acc, s, bc)
termination_by src.length - s.pos
decreasing_by
  simp [advance]
  omega

/-- Python `str.strip()`: remove leading and trailing whitespace. -/
def pyStrip (s : List Char) : List Char :=
  ((s.dropWhile Char.isWhitespace).reverse.dropWhile Char.isWhitespace).reverse

/-- Python `s.split(sep, 1)` for a one-character separator: `some (l, r)`
when the separator occurs (`l` before the first occurrence, `r` the whole
rest), `none` otherwise — mirroring the `if sep in s` guard. -/
def splitColonOnce : List Char → Option (List Char × List Char)
  | [] => none
  | c :: rest =>
      if c = ':' then some ([], rest)
      else
        match splitColonOnce rest with
        | some (l, r) => some (c :: l, r)
        | none => none

/-- An f-string part for an embedded expression. -/
inductive FPart where
  | expr (e : List Char) : FPart
  | exprFormat (e : List Char) (fmt : List Char) : FPart
  deriving Repr, DecidableEq

/-- The format-specifier extraction of `_read_fstring` (compiler.py lines
328..341): strip the scanned expression text; if a colon occurs anywhere
in it, split once at the first colon and strip both halves; a non-empty
format half yields an `EXPR_FORMAT` part, otherwise an `EXPR` part. -/
def fstringExprPart (exprText : List Char) : FPart :=
  let content := pyStrip exprText
  match splitColonOnce content with
  | some (l, r) =>
      let c2 := pyStrip l
      let fs := pyStrip r
      if fs = [] then .expr c2 else .exprFormat c2 fs
  | none => .expr content

/-- Whether a colon occurs at brace depth zero of an expression text —
the discriminating notion used by claim C6 (written from the claim's
words, to be compared against what the code does). -/
def topLevelColonAux : List Char → Nat → Bool
  | [], _ => false
  | c :: r, d =>
      if c = '{' then topLevelColonAux r (d + 1)
      else if c = '}' then topLevelColonAux r (d - 1)
      else if c = ':' then (if d = 0 then true else topLevelColonAux r d)
      else topLevelColonAux r d

/-- See `topLevelColonAux`. -/
def hasTopLevelColon (s : List Char) : Bool := topLevelColonAux s 0

/-- Claim C6 as stated (the part the code refutes): when the expression
text has no top-level colon, nothing is split off as a format specifier —
the whole (stripped) text is kept as the expression source. -/
def ClaimC6Prop : Prop :=
  ∀ e : List Char, hasTopLevelColon (pyStrip e) = false →
    fstringExprPart e = .expr (pyStrip e)

/-- `balancedAt e d`: scanning `e` with `d` surplus open braces keeps the
depth positive throughout and ends with no surplus, so that one further
closing brace ends the expression.  This is the shape of an expression
text whose inner braces are properly nested. -/
def balancedAt : List Char → Nat → Bool
  | [], d => d = 0
  | c :: r, d =>
      if c = '{' then balancedAt r (d + 1)
      else if c = '}' then (decide (0 < d)) && balancedAt r (d - 1)
      else balancedAt r d

end Lex

namespace Imports

/-- An AST node as discriminated by the `visit_node` closure of
`NoxyCompiler._analyze_function_dependencies` (compiler.py lines
5883..5940): the specially-handled classes, plus `generic` standing for
any other node class, whose `__dict__` child nodes (and child-node lists)
are visited recursively. -/
inductive DNode where
  | identifier (name : String) : DNode
  | call (functionName : String) (arguments : List DNode) : DNode
  | structCtor (structName : String) (arguments : List DNode) : DNode
  | assign (value : Option DNode) : DNode
  | binop (left right : DNode) : DNode
  | arrayAccess (arrayName : String) (index : DNode) : DNode
  | ifNode (cond : DNode) (thenBranch : List DNode) (elseBranch : List DNode) : DNode
  | whileNode (cond : DNode) (body : List DNode) : DNode
  | ret (value : Option DNode) : DNode
  | generic (children : List DNode) : DNode

mutual

/-- `visit_node`: the names a node contributes to the dependency set —
identifiers, call targets, struct-constructor names, array names — with
recursive descent into the children each branch visits. -/
def visitNode : DNode → List String
  | .identifier n => [n]
  | .call f args => f :: visitList args
  | .structCtor sname args => sname :: visitList args
  | .assign v =>
      match v with
      | some x => visitNode x
      | none => []
  | .binop l r => visitNode l ++ visitNode r
  | .arrayAccess an i => an :: visitNode i
  | .ifNode c t e => visitNode c ++ (visitList t ++ visitList e)
  | .whileNode c b => visitNode c ++ visitList b
  | .ret v =>
      match v with
      | some x => visitNode x
      | none => []
  | .generic cs => visitList cs

/-- Visiting a list of statements or child nodes in order. -/
def visitList : List DNode → List String
  | [] => []
  | n :: ns => visitNode n ++ visitList ns

end

/-- The `builtin_functions` set of `_analyze_function_dependencies`
(compiler.py line 5946; `to_str` is listed twice in the source literal). -/
def builtinFunctions : List String :=
  ["printf", "malloc", "free", "strlen", "strcpy", "strcat", "to_str",
   "array_to_str", "to_int", "to_float", "ord", "length", "print"]

/-- `_analyze_function_dependencies` (compiler.py lines 5878..5956): visit
every statement of the body, then filter out built-ins and the function's
own parameter names. -/
def analyzeFunctionDependencies (params : List String) (body : List DNode) :
    List String :=
  (visitList body).filter (fun dep => decide (dep ∉ builtinFunctions ∧ dep ∉ params))

/-- An exported symbol's info, as built by
`ModuleManager._extract_exported_symbols`: a top-level function (with its
parameter names and body), a global assignment, or a struct definition. -/
inductive SymInfo where
  | functionSym (params : List String) (body : List DNode) : SymInfo
  | variableSym : SymInfo
  | structSym : SymInfo

/-- A module's export table (a Python dict keyed by symbol name). -/
def ModuleSyms := List (String × SymInfo)

/-- Dict lookup: the last binding for a key wins, as with repeated
`symbols[name] = ...` writes. -/
def msLookup (m : List (String × SymInfo)) (n : String) : Option SymInfo :=
  m.foldl (fun acc kv => if kv.1 = n then some kv.2 else acc) none

/-- `_collect_dependencies` (compiler.py lines 5857..5876), with explicit
fuel standing for the Python call stack (the recursion adds one collected
name per frame, so `|M| + 1` fuel is always enough — proved below).
A name already collected or absent from the module is skipped; otherwise
it is added and, when it names a function, each of its analyzed
dependencies that exists in the module and is not yet collected is
collected recursively. -/
def collectDependencies (M : List (String × SymInfo)) :
    Nat → String → List String → List String
  | 0, _, collected => collected
  | fuel + 1, name, collected =>
      if name ∈ collected ∨ (msLookup M name).isNone then collected
      else
        match msLookup M name with
        | some (.functionSym params body) =>
            (analyzeFunctionDependencies params body).foldl
              (fun acc dep =>
                if (msLookup M dep).isSome ∧ dep ∉ acc then
                  collectDependencies M fuel dep acc
                else acc)
              (name :: collected)
        | _ => name :: collected

/-- The per-symbol loop of the `select` branch of `_handle_use_statement`
(compiler.py lines 5834..5840): each requested symbol present in the
module contributes its dependency closure to `symbols_to_import`; a
missing one raises `NoxyError`. -/
def collectSelected (M : List (String × SymInfo)) :
    List String → List String → Except String (List String)
  | [], acc => .ok acc
  | s :: rest, acc =>
      if (msLookup M s).isSome then
        collectSelected M rest (collectDependencies M (M.length + 1) s acc)
      else .error "Simbolo nao encontrado no modulo"

/-- The final import loop of the `select` branch (compiler.py lines
5844..5846): every collected symbol is registered in
`self.imported_symbols` under its own name, wrapped by the outer
try/except that re-raises as `Erro ao processar import`. -/
def handleUseSelect (M : List (String × SymInfo)) (selected : List String)
    (imported : List (String × SymInfo)) :
    Except String (List (String × SymInfo)) :=
  match collectSelected M selected [] with
  | .error e => .error ("Erro ao processar import: " ++ e)
  | .ok syms =>
      .ok (syms.foldl
        (fun imp s =>
          match msLookup M s with
          | some info => imp ++ [(s, info)]
          | none => imp)
        imported)

/-- One dependency edge: function `s` of the module names `d` (after the
built-in/parameter filter) and `d` is itself exported. -/
def depEdge (M : List (String × SymInfo)) (s d : String) : Prop :=
  ∃ params body, msLookup M s = some (.functionSym params body)
    ∧ d ∈ analyzeFunctionDependencies params body
    ∧ (msLookup M d).isSome

/-- Transitive reachability along dependency edges, starting from an
exported symbol: the import closure described by the spec. -/
inductive Reach (M : List (String × SymInfo)) : String → String → Prop where
  | refl (n : String) (h : (msLookup M n).isSome) : Reach M n n
  | tail (n s d : String) (hr : Reach M n s) (he : depEdge M s d) : Reach M n d

/-- Count of module keys not yet collected — the fuel measure. -/
def remCount (M : List (String × SymInfo)) (acc : List String) : Nat :=
  (((M.map Prod.fst).dedup).filter (fun n => decide (n ∉ acc))).length

end Imports

namespace Structs

/-- A struct field's type as far as `_get_struct_dependencies` and the
struct-processing passes discriminate it: a by-value struct field
(`StructType`), a reference to a struct (`ReferenceType` with struct
target), or anything else. -/
inductive FieldTy where
  | value (sname : String) : FieldTy
  | refField (sname : String) : FieldTy
  | prim : FieldTy
  deriving Repr, DecidableEq

/-- A `StructDefinitionNode` as far as dependency processing sees it. -/
structure SDef where
  name : String
  fields : List (String × FieldTy)
  deriving Repr, DecidableEq

/-- `_get_struct_dependencies` (compiler.py lines 2553..2562): by-value
struct fields are dependencies; reference fields are explicitly not.  (The
source accumulates into a set; only membership matters downstream, and the
field order is used here as the iteration order.) -/
def getStructDependencies (s : SDef) : List String :=
  s.fields.filterMap (fun kv =>
    match kv.2 with
    | .value n => some n
    | _ => none)

/-- An insertion into `self.struct_types`, in insertion order: an opaque
forward declaration made by `_process_struct_definition` for a not yet
present field type, or the registration of a processed struct (with the
flag recording whether it went through
`_process_struct_with_placeholders`). -/
inductive InsEvent where
  | opaqueIns (name : String) : InsEvent
  | structIns (name : String) (viaPlaceholder : Bool) : InsEvent
  deriving Repr, DecidableEq

/-- The key an insertion event is stored under. -/
def evName : InsEvent → String
  | .opaqueIns n => n
  | .structIns n _ => n

/-- The state threaded through `_process_structs_in_dependency_order`:
the insertion events into `self.struct_types` so far, the `processed` and
`processing` sets, and a flag recording whether the fuel bound (standing
for Python's unbounded call stack) was ever hit. -/
structure StState where
  events : List InsEvent
  processed : List String
  processing : List String
  fuelOut : Bool
  deriving Repr, DecidableEq

/-- Names present in `self.struct_types`. -/
def tableNames (st : StState) : List String := st.events.map evName

/-- `_process_struct_definition` (compiler.py lines 2470..2516) as far as
the struct table is concerned: a by-value struct field whose type is not
yet in `struct_types` first gets an opaque forward entry, and then the
struct itself is registered (normal, non-placeholder path). -/
def normalInserts (st : StState) (d : SDef) : StState :=
  let st1 := (getStructDependencies d).foldl
    (fun st2 dep =>
      if dep ∈ tableNames st2 then st2
      else { st2 with events := st2.events ++ [.opaqueIns dep] }) st
  { st1 with events := st1.events ++ [.structIns d.name false] }

/-- `_process_struct_with_placeholders` (compiler.py lines 2564..2580):
fields whose struct type is missing lower to `i8*` placeholders and no
forward entry is made; only the struct itself is registered. -/
def placeholderInsert (st : StState) (d : SDef) : StState :=
  { st with events := st.events ++ [.structIns d.name true] }

/-- The recursive `process_struct` closure of
`_process_structs_in_dependency_order` (compiler.py lines 2518..2551),
with fuel standing for Python's call stack (each recursive call happens
with a name newly added to `processing`, so `|defs| + 1` is always enough
— proved below).  Already-processed structs return immediately; a name
already in `processing` is a detected cycle and is processed with
placeholders; otherwise the struct is marked in-progress, each value-field
dependency found in the definition list is processed first, and the
struct itself is then processed normally. -/
def processStruct (defs : List SDef) : Nat → SDef → StState → StState
  | 0, _, st => { st with fuelOut := true }
  | fuel + 1, d, st =>
      if d.name ∈ st.processed then st
      else if d.name ∈ st.processing then
        let st1 := placeholderInsert st d
        { st1 with processed := d.name :: st1.processed,
                   processing := st1.processing.erase d.name }
      else
        let st1 := { st with processing := d.name :: st.processing }
        let st2 := (getStructDependencies d).foldl
          (fun st3 depName =>
            match defs.find? (fun s => s.name = depName) with
            | some depDef => processStruct defs fuel depDef st3
            | none => st3) st1
        let st3 := normalInserts st2 d
        { st3 with processed := d.name :: st3.processed,
                   processing := st3.processing.erase d.name }

/-- Fresh generator state. -/
def initState : StState :=
  { events := [], processed := [], processing := [], fuelOut := false }

/-- `_process_structs_in_dependency_order` (compiler.py lines 2547..2550):
process every definition in order. -/
def processAll (defs : List SDef) : StState :=
  defs.foldl (fun st d => processStruct defs (defs.length + 1) d st) initState

/-- Fuel measure: definitions whose name is in neither `processed` nor
`processing`. -/
def stMeasure (defs : List SDef) (st : StState) : Nat :=
  (((defs.map SDef.name).dedup).filter
    (fun n => decide (n ∉ st.processed ∧ n ∉ st.processing))).length

/-- The ordering property of claim C4 over an insertion-event sequence:
whenever a struct `A` of the definition set was registered through the
normal (non-placeholder) path, every by-value struct dependency of `A`
that is itself defined was inserted into the struct table earlier. -/
def orderOK (defs : List SDef) (evs : List InsEvent) : Prop :=
  ∀ A, A ∈ defs → ∀ pre post, evs = pre ++ .structIns A.name false :: post →
    ∀ B, B ∈ getStructDependencies A → B ∈ defs.map SDef.name →
      ∃ ev, ev ∈ pre ∧ evName ev = B

/-- Every processed struct is present in the struct table. -/
def processedInTable (st : StState) : Prop :=
  ∀ n, n ∈ st.processed → n ∈ tableNames st

end Structs

namespace Examples

/-- Module mirroring scenario S7 of the spec: `g` calls `h`. -/
def exModule : List (String × Imports.SymInfo) :=
  [("h", .functionSym [] []),
   ("g", .functionSym [] [.call "h" []])]

/-- Import table produced by `use <exModule> select g`. -/
def exTable : List (String × Imports.SymInfo) :=
  [("h", .functionSym [] []),
   ("g", .functionSym [] [.call "h" []])]

/-- Struct definitions where `A` holds a by-value `B` field. -/
def exDefs : List Structs.SDef :=
  [⟨"A", [("b", .value "B")]⟩, ⟨"B", [("x", .prim)]⟩]

/-- Lexer input holding a string literal that spans two source lines. -/
def exStrSrc : List Char := ['"', 'a', '\n', 'b', '"']

/-- F-string expression text whose only colon sits inside nested braces. -/
def exFExpr : List Char := ['a', '{', '1', ':', '2', '}', 'b']

/-- Source for scanning `exFExpr`: the expression text followed by its
closing brace. -/
def exFSrc : List Char := ['a', '{', '1', ':', '2', '}', 'b', '}']

end Examples

end Noxy

/-! ## Theorems -/

namespace Noxy

namespace Codegen

theorem evalL_log (e : LExpr) (log : List Nat) :
    evalL e log = (log ++ traceL e, valueL e) := by
  induction e generalizing log with
  | lit n => simp [evalL, traceL, valueL]
  | boolLit b => simp [evalL, traceL, valueL]
  | effectful id v => simp [evalL, traceL, valueL]
  | binAnd l r ihl ihr =>
      have hl : evalL (.binAnd l r) log
          = ((evalL r (evalL l log).1).1,
             .i1 (truthify (evalL l log).2 && truthify (evalL r (evalL l log).1).2)) := rfl
      have hr : evalL (.binAnd l r) []
          = ((evalL r (evalL l []).1).1,
             .i1 (truthify (evalL l []).2 && truthify (evalL r (evalL l []).1).2)) := rfl
      rw [traceL, valueL, hl, hr, ihl log, ihl [], ihr (log ++ traceL l), ihr ([] ++ traceL l)]
      simp [List.append_assoc]
  | binOr l r ihl ihr =>
      have hl : evalL (.binOr l r) log
          = ((evalL r (evalL l log).1).1,
             .i1 (truthify (evalL l log).2 || truthify (evalL r (evalL l log).1).2)) := rfl
      have hr : evalL (.binOr l r) []
          = ((evalL r (evalL l []).1).1,
             .i1 (truthify (evalL l []).2 || truthify (evalL r (evalL l []).1).2)) := rfl
      rw [traceL, valueL, hl, hr, ihl log, ihl [], ihr (log ++ traceL l), ihr ([] ++ traceL l)]
      simp [List.append_assoc]

end Codegen

namespace Mem

theorem cleanupLoop_eq_map (slots : Nat → Nat) (count i : Nat) (h : i ≤ count) :
    cleanupLoop slots count i = ((List.range (count - i)).map (fun k => slots (i + k))) := by
  generalize hd : count - i = d
  induction d generalizing i with
  | zero =>
      rw [cleanupLoop]
      have : ¬ i < count := by omega
      simp [this]
  | succ d ih =>
      rw [cleanupLoop]
      have hlt : i < count := by omega
      simp only [hlt, dif_pos]
      rw [ih (i + 1) (by omega) (by omega)]
      rw [List.range_succ_eq_map]
      simp [Function.comp]
      intro a _
      congr 1
      omega

theorem trackAll_count (st : LedgerSt) (ps : List Nat) :
    (trackAll st ps).count = st.count + ps.length := by
  induction ps generalizing st with
  | nil => simp [trackAll]
  | cons p ps ih =>
      simp only [trackAll, List.foldl_cons] at *
      rw [ih]
      simp [trackAllocation]
      omega

theorem trackAll_slots_lo (st : LedgerSt) (ps : List Nat) (i : Nat) (h : i < st.count) :
    (trackAll st ps).slots i = st.slots i := by
  induction ps generalizing st with
  | nil => simp [trackAll]
  | cons p ps ih =>
      simp only [trackAll, List.foldl_cons] at *
      rw [ih]
      · simp only [trackAllocation]
        have : i ≠ st.count := by omega
        simp [this]
      · simp [trackAllocation]
        omega

theorem trackAll_slots_hi (st : LedgerSt) (ps : List Nat) (k : Nat) (h : k < ps.length) :
    (trackAll st ps).slots (st.count + k) = ps.get ⟨k, h⟩ := by
  induction ps generalizing st k with
  | nil => simp at h
  | cons p ps ih =>
      simp only [trackAll, List.foldl_cons] at *
      cases k with
      | zero =>
          have hlt : st.count < (trackAllocation st p).count := by
            simp [trackAllocation]
          have hlo := trackAll_slots_lo (trackAllocation st p) ps st.count hlt
          simp only [trackAll] at hlo
          simp only [Nat.add_zero]
          rw [hlo]
          simp [trackAllocation]
      | succ k =>
          have hk : k < ps.length := by simpa using h
          have hcount : (trackAllocation st p).count = st.count + 1 := rfl
          have hih := ih (trackAllocation st p) k hk
          rw [hcount] at hih
          have harg : st.count + (k + 1) = st.count + 1 + k := by omega
          rw [harg, hih]
          simp

theorem cleanupFrees_trackAll (ps : List Nat) :
    cleanupFrees (trackAll ledgerInit ps) = ps := by
  have hcount : (trackAll ledgerInit ps).count = ps.length := by
    rw [trackAll_count]; simp [ledgerInit]
  rw [cleanupFrees, cleanupLoop_eq_map _ _ 0 (by omega), hcount]
  simp only [Nat.sub_zero, Nat.zero_add]
  apply List.ext_get
  · simp
  · intro k h1 h2
    simp only [List.get_map, List.get_range]
    have hk : k < ps.length := by simpa using h2
    have := trackAll_slots_hi ledgerInit ps k hk
    simp only [ledgerInit] at this
    simpa using this

end Mem

namespace StrPlus

theorem cstr_sub (s : List Nat) : ∀ x ∈ cstr s, x ≠ 0 := by
  intro x hx
  have := List.mem_takeWhile_imp hx
  simpa using this

theorem cstr_stop (s t : List Nat) (h : ∀ x ∈ s, x ≠ 0) :
    cstr (s ++ 0 :: t) = s := by
  induction s with
  | nil => simp [cstr, List.takeWhile]
  | cons x s ih =>
      have hx : x ≠ 0 := h x (by simp)
      have hs : ∀ y ∈ s, y ≠ 0 := fun y hy => h y (by simp [hy])
      have hind := ih hs
      simp only [cstr] at hind ⊢
      simp only [ne_eq, decide_not] at hind
      simp [List.takeWhile_cons, hx, hind]

theorem bufAt_mallocH (h : Heap) (n : Nat) :
    bufAt (mallocH h n).1 (mallocH h n).2 = List.replicate n 0 := by
  simp [bufAt, mallocH, List.getD, List.getElem?_append_right]

theorem bufAt_setBuf_eq (h : Heap) (p : Nat) (b : List Nat) (hp : p < h.bufs.length) :
    bufAt (setBuf h p b) p = b := by
  simp [bufAt, setBuf, List.getD, List.getElem?_set, hp]

theorem bufAt_setBuf_ne (h : Heap) (p q : Nat) (b : List Nat) (hq : q ≠ p) :
    bufAt (setBuf h p b) q = bufAt h q := by
  simp [bufAt, setBuf, List.getD, List.getElem?_set, hq.symm]

theorem bufAt_mallocH_lo (h : Heap) (n : Nat) (q : Nat) (hq : q < h.bufs.length) :
    bufAt (mallocH h n).1 q = bufAt h q := by
  simp [bufAt, mallocH, List.getD, List.getElem?_append, hq]

theorem genPlus_str_str (heap : Heap) (led : Mem.LedgerSt) (a b : List Nat) :
    genPlus heap led (.str a) (.str b) =
      .ok { heap := strcatH (strcpyH (mallocH heap (strlenM a + strlenM b + 1)).1
                      heap.bufs.length a) heap.bufs.length b,
            ledger := Mem.trackAllocation led heap.bufs.length,
            res := .concatPtr heap.bufs.length } := rfl

theorem genPlus_str_nonstr (heap : Heap) (led : Mem.LedgerSt) (a : List Nat)
    (v : POperand) (hv : v.isStr = false) :
    ∃ msg, genPlus heap led (.str a) v = .error msg ∧
      genPlus heap led v (.str a) = .error msg := by
  cases v with
  | i64 n => exact ⟨_, rfl, rfl⟩
  | f64 x => exact ⟨_, rfl, rfl⟩
  | str s => simp [POperand.isStr] at hv

theorem concat_bufAt (heap : Heap) (a b : List Nat) :
    bufAt (strcatH (strcpyH (mallocH heap (strlenM a + strlenM b + 1)).1
             heap.bufs.length a) heap.bufs.length b) heap.bufs.length =
      cstr a ++ cstr b ++ [0] := by
  set total := strlenM a + strlenM b + 1 with htotal
  have hplt : heap.bufs.length < ((mallocH heap total).1).bufs.length := by
    simp [mallocH]
  have hbuf0 : bufAt (mallocH heap total).1 heap.bufs.length = List.replicate total 0 :=
    bufAt_mallocH heap total
  have hB1 : bufAt (strcpyH (mallocH heap total).1 heap.bufs.length a) heap.bufs.length
      = cstr a ++ 0 :: List.replicate (strlenM b) 0 := by
    rw [strcpyH, hbuf0, bufAt_setBuf_eq _ _ _ hplt, writeAt]
    have hlen : (cstr a ++ [0]).length = strlenM a + 1 := by simp [strlenM]
    rw [List.take_zero, Nat.zero_add, hlen, List.drop_replicate]
    have : total - (strlenM a + 1) = strlenM b := by omega
    simp [this]
  have hlen1 : strlenM (cstr a ++ 0 :: List.replicate (strlenM b) 0) = strlenM a := by
    rw [strlenM, cstr_stop _ _ (cstr_sub a)]
    rfl
  have hplt2 : heap.bufs.length <
      ((strcpyH (mallocH heap total).1 heap.bufs.length a)).bufs.length := by
    simp only [strcpyH, setBuf]
    simpa using hplt
  rw [strcatH, hB1, bufAt_setBuf_eq _ _ _ hplt2, hlen1, writeAt]
  have htake : (cstr a ++ 0 :: List.replicate (strlenM b) 0).take (strlenM a) = cstr a := by
    have : strlenM a = (cstr a).length := rfl
    rw [this, List.take_left]
  have hdroplen : strlenM a + (cstr b ++ [0]).length
      = (cstr a ++ 0 :: List.replicate (strlenM b) 0).length := by
    simp [strlenM]
  rw [htake, hdroplen, List.drop_length]
  simp

theorem concat_preserves (heap : Heap) (a b : List Nat) (q : Nat)
    (hq : q < heap.bufs.length) :
    bufAt (strcatH (strcpyH (mallocH heap (strlenM a + strlenM b + 1)).1
             heap.bufs.length a) heap.bufs.length b) q = bufAt heap q := by
  have hne : q ≠ heap.bufs.length := by omega
  rw [strcatH, bufAt_setBuf_ne _ _ _ _ hne, strcpyH, bufAt_setBuf_ne _ _ _ _ hne,
    bufAt_mallocH_lo _ _ _ hq]

end StrPlus

namespace Decl

theorem declLoop_append (xs ys : List GStmt) (d : List String) (st : DeclSt) :
    declLoop (xs ++ ys) d st =
      match declLoop xs d st with
      | .ok r => declLoop ys r.1 r.2
      | .error e => .error e := by
  induction xs generalizing d st with
  | nil => simp [declLoop]
  | cons x rest ih =>
      cases x with
      | other => simp only [List.cons_append, declLoop]; exact ih d st
      | glet name ty =>
          simp only [List.cons_append, declLoop]
          by_cases hmem : name ∈ d
          · simp only [hmem, if_true]
            exact ih d st
          · simp only [hmem, if_false]
            cases declareGlobalVariable st name ty with
            | error e => rfl
            | ok st1 => exact ih (name :: d) st1

theorem declPhase_skip_duplicate (pre post : List GStmt) (name : String)
    (ty : Option NTy) (d : List String) (st : DeclSt)
    (hpre : declLoop pre [] declInit = .ok (d, st)) (hmem : name ∈ d) :
    declPhase (pre ++ .glet name ty :: post) = declPhase (pre ++ post) := by
  rw [declPhase, declPhase, declLoop_append, declLoop_append, hpre]
  simp only [declLoop, hmem, if_true]

end Decl

namespace Lex

theorem advance_pos (src : List Char) (s : LexSt) : (advance src s).pos = s.pos + 1 := rfl

theorem countNL_refl (src : List Char) (a : Nat) : countNL src a a = 0 := by
  simp [countNL]

theorem countNL_add (src : List Char) (a b c : Nat) (h1 : a ≤ b) (h2 : b ≤ c) :
    countNL src a b + countNL src b c = countNL src a c := by
  unfold countNL
  have hdd : (src.drop a).drop (b - a) = src.drop b := by
    rw [List.drop_drop]
    congr 1
    omega
  have hsplit : (src.drop a).take (c - a)
      = (src.drop a).take (b - a) ++ (src.drop b).take (c - b) := by
    rw [← hdd]
    have hca : c - a = (b - a) + (c - b) := by omega
    rw [hca, List.take_add]
  rw [hsplit, List.filter_append, List.length_append]

theorem countNL_one (src : List Char) (a : Nat) :
    countNL src a (a + 1) = if src[a]? = some '\n' then 1 else 0 := by
  unfold countNL
  have harr : src[a]? = (src.drop a)[0]? := by simp [List.getElem?_drop]
  have hsub : a + 1 - a = 1 := by omega
  rw [hsub]
  cases hd : src.drop a with
  | nil =>
      rw [harr, hd]
      simp
  | cons c t =>
      rw [harr, hd]
      by_cases hc : c = '\n' <;> simp [hc]

theorem advance_line (src : List Char) (s : LexSt) :
    (advance src s).line = s.line + countNL src s.pos (s.pos + 1) := by
  rw [advance, countNL_one]
  by_cases h : src[s.pos]? = some '\n' <;> simp [h]

theorem getElem?_of_drop_cons {src t : List Char} {c : Char} {p : Nat}
    (h : src.drop p = c :: t) : src[p]? = some c := by
  have harr : src[p]? = (src.drop p)[0]? := by simp [List.getElem?_drop]
  rw [harr, h]
  simp

theorem readStringLoop_spec (src : List Char) :
    ∀ (n : Nat) (s : LexSt) (acc : List Char), src.length - s.pos ≤ n →
    (readStringLoop src s acc).2.line
        = s.line + countNL src s.pos (readStringLoop src s acc).2.pos
    ∧ s.pos ≤ (readStringLoop src s acc).2.pos
    ∧ ((readStringLoop src s acc).2.pos < src.length →
        src[(readStringLoop src s acc).2.pos]? = some '"') := by
  intro n
  induction n with
  | zero =>
      intro s acc hn
      have hge : ¬ s.pos < src.length := by omega
      rw [readStringLoop, dif_neg hge]
      exact ⟨by simp [countNL_refl], le_refl _, fun h => absurd h hge⟩
  | succ n ih =>
      intro s acc hn
      by_cases hlt : s.pos < src.length
      · by_cases hq : src.get ⟨s.pos, hlt⟩ = '"'
        · rw [readStringLoop, dif_pos hlt, if_pos hq]
          refine ⟨by simp [countNL_refl], le_refl _, fun _ => ?_⟩
          have hg : src[s.pos] = '"' := by simpa [List.get_eq_getElem] using hq
          rw [List.getElem?_eq_getElem hlt, hg]
        · by_cases hbs : src.get ⟨s.pos, hlt⟩ = '\\'
          · by_cases h1 : (advance src s).pos < src.length
            · rw [readStringLoop, dif_pos hlt, if_neg hq, if_pos hbs, dif_pos h1]
              have hstep : src.length - (advance src (advance src s)).pos ≤ n := by
                simp only [advance_pos]
                omega
              obtain ⟨hline, hpos, hexit⟩ := ih (advance src (advance src s))
                (acc ++ [unescape (src.get ⟨(advance src s).pos, h1⟩)]) hstep
              set R := readStringLoop src (advance src (advance src s))
                (acc ++ [unescape (src.get ⟨(advance src s).pos, h1⟩)]) with hR
              have hal1 := advance_line src s
              have hal2 := advance_line src (advance src s)
              simp only [advance_pos] at hline hpos hal2
              have e1 := countNL_add src s.pos (s.pos + 1) (s.pos + 1 + 1)
                (by omega) (by omega)
              have e2 := countNL_add src s.pos (s.pos + 1 + 1) R.2.pos (by omega) hpos
              exact ⟨by omega, by omega, hexit⟩
            · rw [readStringLoop, dif_pos hlt, if_neg hq, if_pos hbs, dif_neg h1]
              have hstep : src.length - (advance src s).pos ≤ n := by
                simp only [advance_pos]
                omega
              obtain ⟨hline, hpos, hexit⟩ := ih (advance src s) acc hstep
              set R := readStringLoop src (advance src s) acc with hR
              have hal1 := advance_line src s
              simp only [advance_pos] at hline hpos
              have e1 := countNL_add src s.pos (s.pos + 1) R.2.pos (by omega) hpos
              exact ⟨by omega, by omega, hexit⟩
          · rw [readStringLoop, dif_pos hlt, if_neg hq, if_neg hbs]
            have hstep : src.length - (advance src s).pos ≤ n := by
              simp only [advance_pos]
              omega
            obtain ⟨hline, hpos, hexit⟩ :=
              ih (advance src s) (acc ++ [src.get ⟨s.pos, hlt⟩]) hstep
            set R := readStringLoop src (advance src s) (acc ++ [src.get ⟨s.pos, hlt⟩])
              with hR
            have hal1 := advance_line src s
            simp only [advance_pos] at hline hpos
            have e1 := countNL_add src s.pos (s.pos + 1) R.2.pos (by omega) hpos
            exact ⟨by omega, by omega, hexit⟩
      · rw [readStringLoop, dif_neg hlt]
        exact ⟨by simp [countNL_refl], le_refl _, fun h => absurd h hlt⟩

theorem readString_eq (src : List Char) (s : LexSt) :
    readString src s =
      if (readStringLoop src (advance src s) []).2.pos < src.length then
        .ok ({ value := (readStringLoop src (advance src s) []).1,
               line := (advance src (readStringLoop src (advance src s) []).2).line,
               column := s.col },
             advance src (readStringLoop src (advance src s) []).2)
      else .error "String nao terminada - esperado aspas" := rfl

theorem readString_spec (src : List Char) (s : LexSt) (tok : STok) (s2 : LexSt)
    (h : readString src s = .ok (tok, s2)) :
    tok.column = s.col ∧ tok.line = s.line + countNL src s.pos s2.pos
    ∧ s.pos < s2.pos := by
  rw [readString_eq] at h
  by_cases hg : (readStringLoop src (advance src s) []).2.pos < src.length
  · simp only [hg, if_pos] at h
    injection h with hpair
    injection hpair with h1 h2
    obtain ⟨hline, hpos, hexit⟩ :=
      readStringLoop_spec src (src.length - (advance src s).pos) (advance src s) []
        (le_refl _)
    have hquote := hexit hg
    have hpos1 : s.pos + 1 ≤ (readStringLoop src (advance src s) []).2.pos := by
      simpa [advance_pos] using hpos
    have hq0 : countNL src (readStringLoop src (advance src s) []).2.pos
        ((readStringLoop src (advance src s) []).2.pos + 1) = 0 := by
      rw [countNL_one, hquote]
      simp
    refine ⟨?_, ?_, ?_⟩
    · rw [← h1]
    · rw [← h1, ← h2]
      show (advance src (readStringLoop src (advance src s) []).2).line
          = s.line + countNL src s.pos (advance src (readStringLoop src (advance src s) []).2).pos
      rw [advance_line, hline, advance_line, advance_pos, advance_pos, hq0, Nat.add_zero]
      have e1 : countNL src s.pos (s.pos + 1)
            + countNL src (s.pos + 1) (readStringLoop src (advance src s) []).2.pos
          = countNL src s.pos (readStringLoop src (advance src s) []).2.pos :=
        countNL_add src _ _ _ (by omega) hpos1
      have e2 : countNL src s.pos (readStringLoop src (advance src s) []).2.pos
            + countNL src (readStringLoop src (advance src s) []).2.pos
                ((readStringLoop src (advance src s) []).2.pos + 1)
          = countNL src s.pos ((readStringLoop src (advance src s) []).2.pos + 1) :=
        countNL_add src _ _ _ (by omega) (by omega)
      rw [Nat.add_assoc, e1, ← e2, hq0, Nat.add_zero]
    · rw [← h2]
      show s.pos < (advance src (readStringLoop src (advance src s) []).2).pos
      rw [advance_pos]
      omega
  · simp only [hg, if_neg] at h
    exact absurd h (by simp)

theorem getElem_of_drop_cons {src t : List Char} {c : Char} {p : Nat}
    (h : src.drop p = c :: t) :
    ∃ hp : p < src.length, src[p] = c := by
  have hc := getElem?_of_drop_cons h
  have hlt : p < src.length := by
    by_contra hge
    rw [List.getElem?_eq_none (by omega)] at hc
    exact Option.noConfusion hc
  refine ⟨hlt, ?_⟩
  rw [List.getElem?_eq_getElem hlt] at hc
  exact Option.some.inj hc

theorem drop_succ_of_drop_cons {src t : List Char} {c : Char} {p : Nat}
    (h : src.drop p = c :: t) : src.drop (p + 1) = t := by
  have hdd : src.drop (p + 1) = (src.drop p).drop 1 := by
    rw [List.drop_drop]
  rw [hdd, h]
  simp

theorem scanExpr_spec (src : List Char) :
    ∀ (e : List Char) (d : Nat) (s : LexSt) (acc : List Char) (rest : List Char),
    src.drop s.pos = e ++ '}' :: rest → balancedAt e d = true →
    ∃ s2, scanExpr src s (d + 1) acc = (acc ++ e, s2, 0)
      ∧ s2.pos = s.pos + e.length + 1 := by
  intro e
  induction e with
  | nil =>
      intro d s acc rest hdrop hbal
      have hd : d = 0 := by simpa [balancedAt] using hbal
      subst hd
      obtain ⟨hlt, hget⟩ := getElem_of_drop_cons (by simpa using hdrop)
      have hpair : s.pos < src.length ∧ 0 < 0 + 1 := ⟨hlt, by omega⟩
      rw [scanExpr, dif_pos hpair]
      have hstop : scanExpr src (advance src s) 0 acc = (acc, advance src s, 0) := by
        rw [scanExpr]
        have hfalse : ¬ ((advance src s).pos < src.length ∧ 0 < 0) := by
          intro hcon
          omega
        rw [dif_neg hfalse]
      refine ⟨advance src s, ?_, by simp [advance_pos]⟩
      simp [hget, hstop]
  | cons c e' ih =>
      intro d s acc rest hdrop hbal
      obtain ⟨hlt, hget⟩ := getElem_of_drop_cons (by simpa using hdrop)
      have hdrop1 : src.drop (s.pos + 1) = e' ++ '}' :: rest :=
        drop_succ_of_drop_cons (by simpa using hdrop)
      have hpair : s.pos < src.length ∧ 0 < d + 1 := ⟨hlt, by omega⟩
      rw [scanExpr, dif_pos hpair]
      simp only [List.get_eq_getElem, hget]
      by_cases hco : c = '{'
      · subst hco
        rw [if_pos rfl]
        have hbal1 : balancedAt e' (d + 1) = true := by
          simpa [balancedAt] using hbal
        have hz : (0 : Nat) < d + 1 + 1 := by omega
        rw [if_pos hz]
        obtain ⟨s2, hrun, hp2⟩ := ih (d + 1) (advance src s) (acc ++ ['{']) rest
          (by simpa [advance_pos] using hdrop1) hbal1
        refine ⟨s2, ?_, ?_⟩
        · rw [hrun]
          simp
        · rw [hp2, advance_pos]
          simp
          omega
      · by_cases hcc : c = '}'
        · subst hcc
          rw [if_neg hco, if_pos rfl]
          have hdb : (decide (0 < d) && balancedAt e' (d - 1)) = true := by
            simpa [balancedAt, hco] using hbal
          obtain ⟨hdpos, hbal1⟩ := Bool.and_eq_true_iff.mp hdb
          have hdpos2 : 0 < d := of_decide_eq_true hdpos
          have hz : (0 : Nat) < d + 1 - 1 := by omega
          rw [if_pos hz]
          have harg : d + 1 - 1 = (d - 1) + 1 := by omega
          rw [harg]
          obtain ⟨s2, hrun, hp2⟩ := ih (d - 1) (advance src s) (acc ++ ['}']) rest
            (by simpa [advance_pos] using hdrop1) hbal1
          refine ⟨s2, ?_, ?_⟩
          · rw [hrun]
            simp
          · rw [hp2, advance_pos]
            simp
            omega
        · rw [if_neg hco, if_neg hcc]
          have hbal1 : balancedAt e' d = true := by
            simpa [balancedAt, hco, hcc] using hbal
          have hz : (0 : Nat) < d + 1 := by omega
          rw [if_pos hz]
          obtain ⟨s2, hrun, hp2⟩ := ih d (advance src s) (acc ++ [c]) rest
            (by simpa [advance_pos] using hdrop1) hbal1
          refine ⟨s2, ?_, ?_⟩
          · rw [hrun]
            simp
          · rw [hp2, advance_pos]
            simp
            omega

theorem splitColonOnce_of (l r : List Char) (hl : ':' ∉ l) :
    splitColonOnce (l ++ ':' :: r) = some (l, r) := by
  induction l with
  | nil => simp [splitColonOnce]
  | cons c t ih =>
      have hc : ¬ c = ':' := by
        intro h
        exact hl (by simp [h])
      have ht : ':' ∉ t := fun h => hl (by simp [h])
      simp [splitColonOnce, hc, ih ht]

theorem fstringExprPart_split (e l r : List Char)
    (hsplit : pyStrip e = l ++ ':' :: r) (hl : ':' ∉ l) :
    fstringExprPart e =
      (if pyStrip r = [] then FPart.expr (pyStrip l)
       else FPart.exprFormat (pyStrip l) (pyStrip r)) := by
  rw [fstringExprPart]
  simp only [hsplit, splitColonOnce_of l r hl]

end Lex

namespace Imports

theorem msLookup_aux (m : List (String × SymInfo)) (n : String) :
    ∀ init : Option SymInfo,
    ((m.foldl (fun acc kv => if kv.1 = n then some kv.2 else acc) init).isSome)
      ↔ (init.isSome ∨ n ∈ m.map Prod.fst) := by
  induction m with
  | nil =>
      intro init
      simp
  | cons kv t ih =>
      intro init
      simp only [List.foldl_cons, List.map_cons, List.mem_cons]
      rw [ih]
      by_cases h : kv.1 = n
      · simp [h]
      · have h2 : ¬ n = kv.1 := fun hh => h hh.symm
        simp [h, h2]

theorem msLookup_isSome_iff (M : List (String × SymInfo)) (n : String) :
    (msLookup M n).isSome ↔ n ∈ M.map Prod.fst := by
  rw [msLookup, msLookup_aux]
  simp

theorem filterLength_mono {p q : String → Bool} (l : List String)
    (h : ∀ x, p x = true → q x = true) :
    (l.filter p).length ≤ (l.filter q).length := by
  induction l with
  | nil => simp
  | cons x t ih =>
      cases hp : p x with
      | true =>
          have hq := h x hp
          simp only [List.filter_cons, hp, hq, if_pos]
          simpa using ih
      | false =>
          cases hq : q x with
          | true =>
              simp only [List.filter_cons, hp, hq]
              simp only [Bool.false_eq_true, if_false, if_pos, List.length_cons]
              omega
          | false =>
              simp only [List.filter_cons, hp, hq]
              simpa using ih

theorem remCount_mono (M : List (String × SymInfo)) {A B : List String}
    (h : ∀ x, x ∈ A → x ∈ B) : remCount M B ≤ remCount M A := by
  unfold remCount
  apply filterLength_mono
  intro x hx
  simp only [decide_eq_true_eq] at hx ⊢
  intro hxA
  exact hx (h x hxA)

theorem filter_notin_cons_lt (acc : List String) (x : String) :
    ∀ (l : List String), x ∈ l → x ∉ acc →
    (l.filter (fun n => decide (n ∉ x :: acc))).length
      < (l.filter (fun n => decide (n ∉ acc))).length := by
  intro l
  induction l with
  | nil =>
      intro hx
      simp at hx
  | cons y t ih =>
      intro hx hnacc
      by_cases hyx : y = x
      · subst hyx
        have h1 : ¬ (y ∉ y :: acc) := fun hc => hc (by simp)
        simp only [List.filter_cons, h1, decide_False, Bool.false_eq_true, if_false,
          hnacc, decide_True, not_false_eq_true, if_pos, List.length_cons]
        have hmono : (t.filter (fun n => decide (n ∉ y :: acc))).length
            ≤ (t.filter (fun n => decide (n ∉ acc))).length := by
          apply filterLength_mono
          intro z hz
          simp only [decide_eq_true_eq] at hz ⊢
          intro hza
          exact hz (by simp [hza])
        omega
      · have hxt : x ∈ t := by
          rcases List.mem_cons.mp hx with h1 | h2
          · exact absurd h1.symm hyx
          · exact h2
        have hrec := ih hxt hnacc
        by_cases hyacc : y ∈ acc
        · have h1 : ¬ (y ∉ y :: acc) := fun hc => hc (by simp)
          have h2 : ¬ (y ∉ x :: acc) := fun hc => hc (by simp [hyacc])
          have h3 : ¬ (y ∉ acc) := fun hc => hc hyacc
          simp only [List.filter_cons, h2, h3, decide_False, Bool.false_eq_true, if_false]
          exact hrec
        · have h2 : y ∉ x :: acc := by
            intro hc
            rcases List.mem_cons.mp hc with ha | hb
            · exact hyx ha
            · exact hyacc hb
          simp only [List.filter_cons, h2, hyacc, decide_True, not_false_eq_true, if_pos,
            List.length_cons]
          omega

theorem remCount_cons_lt (M : List (String × SymInfo)) (name : String)
    (acc : List String) (hmem : name ∈ M.map Prod.fst) (hnin : name ∉ acc) :
    remCount M (name :: acc) < remCount M acc := by
  unfold remCount
  exact filter_notin_cons_lt acc name _ (List.mem_dedup.mpr hmem) hnin

theorem foldStep_superset (M : List (String × SymInfo)) (fuel : Nat)
    (hcs : ∀ (name : String) (acc : List String),
      acc ⊆ collectDependencies M fuel name acc) :
    ∀ (ds : List String) (A0 : List String),
      A0 ⊆ ds.foldl
        (fun acc2 dep => if (msLookup M dep).isSome ∧ dep ∉ acc2 then
          collectDependencies M fuel dep acc2 else acc2) A0 := by
  intro ds
  induction ds with
  | nil => simp
  | cons dep ds2 ihds =>
      intro A0
      simp only [List.foldl_cons]
      by_cases hc : (msLookup M dep).isSome ∧ dep ∉ A0
      · rw [if_pos hc]
        exact (hcs dep A0).trans (ihds _)
      · rw [if_neg hc]
        exact ihds _

theorem collect_superset (M : List (String × SymInfo)) :
    ∀ (fuel : Nat) (name : String) (acc : List String),
      acc ⊆ collectDependencies M fuel name acc := by
  intro fuel
  induction fuel with
  | zero =>
      intro name acc
      rw [collectDependencies]
      exact List.Subset.refl _
  | succ fuel ih =>
      intro name acc
      rw [collectDependencies]
      by_cases h : name ∈ acc ∨ (msLookup M name).isNone
      · rw [if_pos h]
        exact List.Subset.refl _
      · rw [if_neg h]
        cases hm : msLookup M name with
        | none => exact absurd (Or.inr (by rw [hm]; rfl)) h
        | some info =>
            have hsub : acc ⊆ name :: acc := List.subset_cons_self _ _
            cases info with
            | functionSym params body =>
                refine hsub.trans ?_
                show (name :: acc) ⊆ (analyzeFunctionDependencies params body).foldl
                  (fun acc2 dep => if (msLookup M dep).isSome ∧ dep ∉ acc2 then
                    collectDependencies M fuel dep acc2 else acc2) (name :: acc)
                exact foldStep_superset M fuel ih _ _
            | variableSym => exact hsub
            | structSym => exact hsub

theorem collect_elem (M : List (String × SymInfo)) (fuel : Nat) (name : String)
    (acc : List String) (h : (msLookup M name).isSome) :
    name ∈ collectDependencies M (fuel + 1) name acc := by
  rw [collectDependencies]
  by_cases hin : name ∈ acc ∨ (msLookup M name).isNone
  · rw [if_pos hin]
    rcases hin with h1 | h2
    · exact h1
    · rw [Option.isNone_iff_eq_none] at h2
      rw [h2] at h
      exact absurd h (by simp)
  · rw [if_neg hin]
    cases hm : msLookup M name with
    | none => exact absurd (Or.inr (by rw [hm]; rfl)) hin
    | some info =>
        cases info with
        | functionSym params body =>
            show name ∈ (analyzeFunctionDependencies params body).foldl
              (fun acc2 dep => if (msLookup M dep).isSome ∧ dep ∉ acc2 then
                collectDependencies M fuel dep acc2 else acc2) (name :: acc)
            exact foldStep_superset M fuel (collect_superset M fuel) _ _ (by simp)
        | variableSym => show name ∈ name :: acc; simp
        | structSym => show name ∈ name :: acc; simp

theorem Reach_trans {M : List (String × SymInfo)} {a b c : String}
    (h1 : Reach M a b) (h2 : Reach M b c) : Reach M a c := by
  induction h2 with
  | refl h => exact h1
  | tail s d hr he ihr => exact Reach.tail _ _ _ ihr he

theorem Reach_isSome {M : List (String × SymInfo)} {a b : String}
    (h : Reach M a b) : (msLookup M b).isSome := by
  induction h with
  | refl hn => exact hn
  | tail s d hr he _ =>
      obtain ⟨p, b2, _, _, hs⟩ := he
      exact hs

theorem collect_sound (M : List (String × SymInfo)) :
    ∀ (fuel : Nat) (name : String) (acc : List String) (x : String),
    x ∈ collectDependencies M fuel name acc → x ∈ acc ∨ Reach M name x := by
  intro fuel
  induction fuel with
  | zero =>
      intro name acc x hx
      rw [collectDependencies] at hx
      exact Or.inl hx
  | succ fuel ih =>
      intro name acc x hx
      rw [collectDependencies] at hx
      by_cases h : name ∈ acc ∨ (msLookup M name).isNone
      · rw [if_pos h] at hx
        exact Or.inl hx
      · rw [if_neg h] at hx
        cases hm : msLookup M name with
        | none => exact absurd (Or.inr (by rw [hm]; rfl)) h
        | some info =>
            rw [hm] at hx
            have hsome : (msLookup M name).isSome := by rw [hm]; rfl
            cases info with
            | variableSym =>
                have hx2 : x ∈ name :: acc := hx
                rcases List.mem_cons.mp hx2 with h1 | h2
                · exact Or.inr (h1 ▸ Reach.refl name hsome)
                · exact Or.inl h2
            | structSym =>
                have hx2 : x ∈ name :: acc := hx
                rcases List.mem_cons.mp hx2 with h1 | h2
                · exact Or.inr (h1 ▸ Reach.refl name hsome)
                · exact Or.inl h2
            | functionSym params body =>
                have hfold : ∀ (ds A : List String),
                    (∀ y ∈ A, y ∈ acc ∨ Reach M name y) →
                    (∀ d ∈ ds, d ∈ analyzeFunctionDependencies params body) →
                    ∀ y ∈ ds.foldl
                      (fun acc2 dep => if (msLookup M dep).isSome ∧ dep ∉ acc2 then
                          collectDependencies M fuel dep acc2 else acc2) A,
                      y ∈ acc ∨ Reach M name y := by
                  intro ds
                  induction ds with
                  | nil =>
                      intro A hInv _ y hy
                      simp only [List.foldl_nil] at hy
                      exact hInv y hy
                  | cons dep ds2 ihds =>
                      intro A hInv hds y hy
                      simp only [List.foldl_cons] at hy
                      by_cases hc : (msLookup M dep).isSome ∧ dep ∉ A
                      · rw [if_pos hc] at hy
                        refine ihds (collectDependencies M fuel dep A) ?_
                          (fun d hd => hds d (by simp [hd])) y hy
                        intro y2 hy2
                        rcases ih dep A y2 hy2 with h1 | h2
                        · exact hInv y2 h1
                        · have hedge : depEdge M name dep :=
                            ⟨params, body, hm, hds dep (by simp), hc.1⟩
                          have hnd : Reach M name dep :=
                            Reach.tail name name dep (Reach.refl name hsome) hedge
                          exact Or.inr (Reach_trans hnd h2)
                      · rw [if_neg hc] at hy
                        exact ihds A hInv (fun d hd => hds d (by simp [hd])) y hy
                have hx2 : x ∈ (analyzeFunctionDependencies params body).foldl
                    (fun acc2 dep => if (msLookup M dep).isSome ∧ dep ∉ acc2 then
                      collectDependencies M fuel dep acc2 else acc2) (name :: acc) := hx
                refine hfold (analyzeFunctionDependencies params body) (name :: acc)
                  ?_ (fun d hd => hd) x hx2
                intro y hy
                rcases List.mem_cons.mp hy with h1 | h2
                · exact Or.inr (h1 ▸ Reach.refl name hsome)
                · exact Or.inl h2

theorem collect_closed (M : List (String × SymInfo)) :
    ∀ (fuel : Nat) (name : String) (acc : List String),
    remCount M acc < fuel →
    ∀ s ∈ collectDependencies M fuel name acc, s ∉ acc →
    ∀ d, depEdge M s d → d ∈ collectDependencies M fuel name acc := by
  intro fuel
  induction fuel with
  | zero =>
      intro name acc hrem
      exact absurd hrem (Nat.not_lt_zero _)
  | succ fuel ih =>
      intro name acc hrem s hs hsnotin d hedge
      rw [collectDependencies] at hs ⊢
      by_cases h : name ∈ acc ∨ (msLookup M name).isNone
      · rw [if_pos h] at hs ⊢
        exact absurd hs hsnotin
      · rw [if_neg h] at hs ⊢
        have hnin : name ∉ acc := fun hc => h (Or.inl hc)
        cases hm : msLookup M name with
        | none => exact absurd (Or.inr (by rw [hm]; rfl)) h
        | some info =>
            rw [hm] at hs
            have hsome : (msLookup M name).isSome := by rw [hm]; rfl
            have hkey : name ∈ M.map Prod.fst := (msLookup_isSome_iff M name).mp hsome
            cases info with
            | variableSym =>
                have hs2 : s ∈ name :: acc := hs
                rcases List.mem_cons.mp hs2 with h1 | h2
                · subst h1
                  obtain ⟨p, b, hf, _, _⟩ := hedge
                  rw [hm] at hf
                  exact absurd (Option.some.inj hf) (by intro hc; cases hc)
                · exact absurd h2 hsnotin
            | structSym =>
                have hs2 : s ∈ name :: acc := hs
                rcases List.mem_cons.mp hs2 with h1 | h2
                · subst h1
                  obtain ⟨p, b, hf, _, _⟩ := hedge
                  rw [hm] at hf
                  exact absurd (Option.some.inj hf) (by intro hc; cases hc)
                · exact absurd h2 hsnotin
            | functionSym params body =>
                have key : ∀ (ds A : List String), remCount M A < fuel →
                    (∀ s2 ∈ A, s2 ∉ acc → ∀ d2, depEdge M s2 d2 → d2 ∈ A ∨ d2 ∈ ds) →
                    ∀ s2 ∈ ds.foldl
                      (fun acc2 dep => if (msLookup M dep).isSome ∧ dep ∉ acc2 then
                        collectDependencies M fuel dep acc2 else acc2) A,
                      s2 ∉ acc → ∀ d2, depEdge M s2 d2 →
                      d2 ∈ ds.foldl
                        (fun acc2 dep => if (msLookup M dep).isSome ∧ dep ∉ acc2 then
                          collectDependencies M fuel dep acc2 else acc2) A := by
                  intro ds
                  induction ds with
                  | nil =>
                      intro A _ hInv s2 hs2 hs2n d2 he2
                      simp only [List.foldl_nil] at hs2 ⊢
                      rcases hInv s2 hs2 hs2n d2 he2 with h1 | h2
                      · exact h1
                      · simp at h2
                  | cons dep ds2 ihds =>
                      intro A hA hInv s2 hs2 hs2n d2 he2
                      simp only [List.foldl_cons] at hs2 ⊢
                      by_cases hc : (msLookup M dep).isSome ∧ dep ∉ A
                      · rw [if_pos hc] at hs2 ⊢
                        obtain ⟨fuel2, hfuel2⟩ : ∃ k, fuel = k + 1 :=
                          ⟨fuel - 1, by omega⟩
                        have hdepA2 : dep ∈ collectDependencies M fuel dep A := by
                          rw [hfuel2]
                          exact collect_elem M fuel2 dep A hc.1
                        have hsubA2 : A ⊆ collectDependencies M fuel dep A :=
                          collect_superset M fuel dep A
                        have hdkey : dep ∈ M.map Prod.fst :=
                          (msLookup_isSome_iff M dep).mp hc.1
                        have hremA2 : remCount M (collectDependencies M fuel dep A)
                            < remCount M A := by
                          have h1 : remCount M (collectDependencies M fuel dep A)
                              ≤ remCount M (dep :: A) := by
                            apply remCount_mono
                            intro x hx
                            rcases List.mem_cons.mp hx with hx1 | hx2
                            · exact hx1 ▸ hdepA2
                            · exact hsubA2 hx2
                          have h2 := remCount_cons_lt M dep A hdkey hc.2
                          omega
                        refine ihds (collectDependencies M fuel dep A)
                          (by omega) ?_ s2 hs2 hs2n d2 he2
                        intro s3 hs3 hs3n d3 he3
                        by_cases hs3A : s3 ∈ A
                        · rcases hInv s3 hs3A hs3n d3 he3 with h1 | h2
                          · exact Or.inl (hsubA2 h1)
                          · rcases List.mem_cons.mp h2 with h2a | h2b
                            · exact Or.inl (h2a ▸ hdepA2)
                            · exact Or.inr h2b
                        · exact Or.inl (ih dep A hA s3 hs3 hs3A d3 he3)
                      · rw [if_neg hc] at hs2 ⊢
                        refine ihds A hA ?_ s2 hs2 hs2n d2 he2
                        intro s3 hs3 hs3n d3 he3
                        rcases hInv s3 hs3 hs3n d3 he3 with h1 | h2
                        · exact Or.inl h1
                        · rcases List.mem_cons.mp h2 with h2a | h2b
                          · subst h2a
                            obtain ⟨p3, b3, _, _, hs3some⟩ := he3
                            have hdepA : d3 ∈ A := by
                              by_contra hcon
                              exact hc ⟨hs3some, hcon⟩
                            exact Or.inl hdepA
                          · exact Or.inr h2b
                have hs2 : s ∈ (analyzeFunctionDependencies params body).foldl
                    (fun acc2 dep => if (msLookup M dep).isSome ∧ dep ∉ acc2 then
                      collectDependencies M fuel dep acc2 else acc2) (name :: acc) := hs
                have hremA0 : remCount M (name :: acc) < fuel := by
                  have h1 := remCount_cons_lt M name acc hkey hnin
                  omega
                show d ∈ (analyzeFunctionDependencies params body).foldl
                  (fun acc2 dep => if (msLookup M dep).isSome ∧ dep ∉ acc2 then
                    collectDependencies M fuel dep acc2 else acc2) (name :: acc)
                refine key (analyzeFunctionDependencies params body) (name :: acc)
                  hremA0 ?_ s hs2 hsnotin d hedge
                intro s2 hs2m hs2n d2 he2
                rcases List.mem_cons.mp hs2m with h1 | h2
                · subst h1
                  obtain ⟨p2, b2, hf2, hd2, _⟩ := he2
                  rw [hm] at hf2
                  have hinj := Option.some.inj hf2
                  cases hinj
                  exact Or.inr hd2
                · exact absurd h2 hs2n

theorem collect_iff (M : List (String × SymInfo)) (f x : String)
    (hf : (msLookup M f).isSome) :
    x ∈ collectDependencies M (M.length + 1) f [] ↔ Reach M f x := by
  constructor
  · intro hx
    rcases collect_sound M _ f [] x hx with h1 | h2
    · simp at h1
    · exact h2
  · intro hr
    have hfuel : remCount M [] < M.length + 1 := by
      unfold remCount
      have h1 : (((M.map Prod.fst).dedup).filter
          (fun n => decide (n ∉ ([] : List String)))).length
          ≤ ((M.map Prod.fst).dedup).length := List.length_filter_le _ _
      have h2 : ((M.map Prod.fst).dedup).length ≤ (M.map Prod.fst).length :=
        (List.dedup_sublist _).length_le
      have h3 : (M.map Prod.fst).length = M.length := List.length_map _ _
      omega
    induction hr with
    | refl h => exact collect_elem M M.length f [] h
    | tail s d hr2 he ihr =>
        exact collect_closed M (M.length + 1) f [] hfuel s ihr (by simp) d he

theorem foldInsert_keys (M : List (String × SymInfo)) (syms : List String) :
    ∀ imp : List (String × SymInfo),
    (∀ s ∈ syms, (msLookup M s).isSome) →
    ((syms.foldl (fun imp2 s =>
        match msLookup M s with
        | some info => imp2 ++ [(s, info)]
        | none => imp2) imp).map Prod.fst)
      = imp.map Prod.fst ++ syms := by
  induction syms with
  | nil =>
      intro imp _
      simp
  | cons s rest ih =>
      intro imp hall
      simp only [List.foldl_cons]
      have hs := hall s (by simp)
      cases hm : msLookup M s with
      | none =>
          rw [hm] at hs
          exact absurd hs (by simp)
      | some info =>
          show ((rest.foldl (fun imp2 s2 =>
              match msLookup M s2 with
              | some info2 => imp2 ++ [(s2, info2)]
              | none => imp2) (imp ++ [(s, info)])).map Prod.fst)
            = imp.map Prod.fst ++ s :: rest
          rw [ih _ (fun x hx => hall x (by simp [hx]))]
          simp

theorem handleUseSelect_single_keys (M : List (String × SymInfo)) (f : String)
    (imported tbl : List (String × SymInfo)) (hf : (msLookup M f).isSome)
    (h : handleUseSelect M [f] imported = .ok tbl) (k : String) :
    k ∈ tbl.map Prod.fst ↔ k ∈ imported.map Prod.fst ∨ Reach M f k := by
  have hcs : collectSelected M [f] [] =
      .ok (collectDependencies M (M.length + 1) f []) := by
    rw [collectSelected, if_pos hf, collectSelected]
  rw [handleUseSelect, hcs] at h
  have hall : ∀ s ∈ collectDependencies M (M.length + 1) f [],
      (msLookup M s).isSome := by
    intro s hs
    exact Reach_isSome ((collect_iff M f s hf).mp hs)
  have htbl := Except.ok.inj h
  rw [← htbl, foldInsert_keys M _ imported hall, List.mem_append,
    collect_iff M f k hf]

theorem handleUseSelect_missing (M : List (String × SymInfo))
    (selected : List String) (imported : List (String × SymInfo)) (s : String)
    (hs : s ∈ selected) (hmiss : (msLookup M s).isNone) :
    ∃ msg, handleUseSelect M selected imported = .error msg := by
  have key : ∀ (sel : List String), s ∈ sel →
      ∀ acc, ∃ e, collectSelected M sel acc = .error e := by
    intro sel
    induction sel with
    | nil =>
        intro hmem
        simp at hmem
    | cons x rest ih =>
        intro hmem acc
        rw [collectSelected]
        by_cases hx : (msLookup M x).isSome
        · rw [if_pos hx]
          rcases List.mem_cons.mp hmem with h1 | h2
          · subst h1
            rw [Option.isNone_iff_eq_none] at hmiss
            rw [hmiss] at hx
            exact absurd hx (by simp)
          · exact ih h2 _
        · rw [if_neg hx]
          exact ⟨_, rfl⟩
  obtain ⟨e, he⟩ := key selected hs []
  rw [handleUseSelect, he]
  exact ⟨_, rfl⟩

end Imports

namespace Structs

theorem filterLength_lt {p q : String → Bool} (l : List String)
    (himp : ∀ x, q x = true → p x = true) (x : String) (hx : x ∈ l)
    (hpx : p x = true) (hqx : q x = false) :
    (l.filter q).length < (l.filter p).length := by
  induction l with
  | nil => simp at hx
  | cons y t ih =>
      rcases List.mem_cons.mp hx with h1 | h2
      · subst h1
        simp only [List.filter_cons, hqx, hpx, if_pos, Bool.false_eq_true, if_false,
          List.length_cons]
        have := Imports.filterLength_mono t himp
        omega
      · have hrec := ih h2
        cases hqy : q y with
        | true =>
            have hpy := himp y hqy
            simp only [List.filter_cons, hqy, hpy, if_pos, List.length_cons]
            omega
        | false =>
            cases hpy : p y with
            | true =>
                simp only [List.filter_cons, hqy, hpy, if_pos, Bool.false_eq_true,
                  if_false, List.length_cons]
                omega
            | false =>
                simp only [List.filter_cons, hqy, hpy, Bool.false_eq_true, if_false]
                omega

theorem stMeasure_processing_lt (defs : List SDef) (st : StState) (name : String)
    (hmem : name ∈ defs.map SDef.name) (h1 : name ∉ st.processed)
    (h2 : name ∉ st.processing) :
    stMeasure defs { st with processing := name :: st.processing }
      < stMeasure defs st := by
  unfold stMeasure
  apply filterLength_lt _ _ name (List.mem_dedup.mpr hmem)
  · simp [h1, h2]
  · simp
  · intro z hq
    simp only [decide_eq_true_eq] at hq ⊢
    exact ⟨hq.1, fun hc => hq.2 (by simp [hc])⟩

theorem stMeasure_mono (defs : List SDef) (st st2 : StState)
    (h : ∀ x, (x ∈ st.processed ∨ x ∈ st.processing) →
        (x ∈ st2.processed ∨ x ∈ st2.processing)) :
    stMeasure defs st2 ≤ stMeasure defs st := by
  unfold stMeasure
  apply Imports.filterLength_mono
  intro x hx
  simp only [decide_eq_true_eq] at hx ⊢
  constructor
  · intro hc
    rcases h x (Or.inl hc) with ha | hb
    · exact hx.1 ha
    · exact hx.2 hb
  · intro hc
    rcases h x (Or.inr hc) with ha | hb
    · exact hx.1 ha
    · exact hx.2 hb

theorem stMeasure_le (defs : List SDef) (st : StState) :
    stMeasure defs st ≤ defs.length := by
  unfold stMeasure
  have h1 := List.length_filter_le
    (fun n => decide (n ∉ st.processed ∧ n ∉ st.processing))
    ((defs.map SDef.name).dedup)
  have h2 : ((defs.map SDef.name).dedup).length ≤ (defs.map SDef.name).length :=
    (List.dedup_sublist _).length_le
  have h3 : (defs.map SDef.name).length = defs.length := List.length_map _ _
  omega

theorem append_cons_decomp {α : Type} {evs t pre post : List α} {e : α}
    (h : evs ++ t = pre ++ e :: post) :
    (∃ rest, evs = pre ++ e :: rest) ∨ (∃ pre2, pre = evs ++ pre2 ∧ t = pre2 ++ e :: post) := by
  rcases List.append_eq_append_iff.mp h with ⟨a2, ha1, ha2⟩ | ⟨c2, hc1, hc2⟩
  · exact Or.inr ⟨a2, ha1, ha2⟩
  · cases c2 with
    | nil =>
        refine Or.inr ⟨[], by simpa using hc1.symm, ?_⟩
        simpa using hc2.symm
    | cons e2 c3 =>
        have h2 : e = e2 ∧ post = c3 ++ t := by
          have h3 := hc2
          simp only [List.cons_append] at h3
          exact ⟨(List.cons.inj h3).1, (List.cons.inj h3).2⟩
        exact Or.inl ⟨c3, by rw [hc1, ← h2.1]⟩

theorem orderOK_append_nonnormal (defs : List SDef) (evs t : List InsEvent)
    (h : orderOK defs evs)
    (ht : ∀ ev ∈ t, ∀ n, ev ≠ InsEvent.structIns n false) :
    orderOK defs (evs ++ t) := by
  intro A hA pre post hdec B hB hBdef
  rcases append_cons_decomp hdec with ⟨rest, hrest⟩ | ⟨pre2, hpre2, ht2⟩
  · exact h A hA pre rest hrest B hB hBdef
  · exfalso
    have hmem : InsEvent.structIns A.name false ∈ t := by
      rw [ht2]
      simp
    exact ht _ hmem A.name rfl

theorem orderOK_snoc_normal (defs : List SDef)
    (hnodup : (defs.map SDef.name).Nodup) (evs : List InsEvent) (d : SDef)
    (hd : d ∈ defs) (h : orderOK defs evs)
    (hdeps : ∀ B, B ∈ getStructDependencies d → B ∈ defs.map SDef.name →
      ∃ ev, ev ∈ evs ∧ evName ev = B) :
    orderOK defs (evs ++ [InsEvent.structIns d.name false]) := by
  intro A hA pre post hdec B hB hBdef
  rcases append_cons_decomp hdec with ⟨rest, hrest⟩ | ⟨pre2, hpre2, ht2⟩
  · exact h A hA pre rest hrest B hB hBdef
  · have hpe : pre2 = [] ∧ A.name = d.name := by
      cases pre2 with
      | nil =>
          simp only [List.nil_append] at ht2
          have h1 := List.cons.inj ht2
          have h2 : d.name = A.name := by
            injection h1.1
          exact ⟨rfl, h2.symm⟩
      | cons x xs =>
          exfalso
          have hlen := congrArg List.length ht2
          simp at hlen
    have hAd : A = d := List.inj_on_of_nodup_map hnodup hA hd hpe.2
    subst hAd
    obtain ⟨ev, hev, hevn⟩ := hdeps B hB hBdef
    refine ⟨ev, ?_, hevn⟩
    rw [hpre2, hpe.1]
    simpa using hev

theorem opaqueLoop (ds : List String) :
    ∀ st : StState,
    ∃ opq, (ds.foldl (fun st2 dep =>
        if dep ∈ tableNames st2 then st2
        else { st2 with events := st2.events ++ [.opaqueIns dep] }) st)
      = { st with events := st.events ++ opq }
      ∧ ∀ ev ∈ opq, ∃ n, ev = InsEvent.opaqueIns n := by
  induction ds with
  | nil =>
      intro st
      exact ⟨[], by simp, by simp⟩
  | cons dep ds2 ih =>
      intro st
      simp only [List.foldl_cons]
      by_cases hc : dep ∈ tableNames st
      · rw [if_pos hc]
        obtain ⟨opq, heq, hall⟩ := ih st
        exact ⟨opq, heq, hall⟩
      · rw [if_neg hc]
        obtain ⟨opq, heq, hall⟩ := ih { st with events := st.events ++ [.opaqueIns dep] }
        refine ⟨InsEvent.opaqueIns dep :: opq, ?_, ?_⟩
        · rw [heq]
          simp
        · intro ev hev
          rcases List.mem_cons.mp hev with h1 | h2
          · exact ⟨dep, h1⟩
          · exact hall ev h2

theorem normalInserts_decomp (st : StState) (d : SDef) :
    ∃ opq, normalInserts st d
        = { st with events := st.events ++ opq ++ [.structIns d.name false] }
      ∧ ∀ ev ∈ opq, ∃ n, ev = InsEvent.opaqueIns n := by
  obtain ⟨opq, heq, hall⟩ := opaqueLoop (getStructDependencies d) st
  refine ⟨opq, ?_, hall⟩
  rw [normalInserts]
  rw [heq]

theorem processOrder (defs : List SDef) (hnodup : (defs.map SDef.name).Nodup) :
    ∀ (fuel : Nat) (d : SDef) (st : StState), d ∈ defs →
    stMeasure defs st < fuel → st.fuelOut = false →
    processedInTable st → orderOK defs st.events →
    (processStruct defs fuel d st).fuelOut = false
    ∧ d.name ∈ (processStruct defs fuel d st).processed
    ∧ (∀ x, x ∈ st.processed → x ∈ (processStruct defs fuel d st).processed)
    ∧ (∃ t, (processStruct defs fuel d st).events = st.events ++ t)
    ∧ (∀ x, (x ∈ st.processed ∨ x ∈ st.processing) →
        (x ∈ (processStruct defs fuel d st).processed
          ∨ x ∈ (processStruct defs fuel d st).processing))
    ∧ processedInTable (processStruct defs fuel d st)
    ∧ orderOK defs (processStruct defs fuel d st).events := by
  intro fuel
  induction fuel with
  | zero =>
      intro d st _ hms
      exact absurd hms (Nat.not_lt_zero _)
  | succ fuel ih =>
      intro d st hd hms hfo hI1 hI2
      rw [processStruct]
      by_cases hp1 : d.name ∈ st.processed
      · rw [if_pos hp1]
        exact ⟨hfo, hp1, fun x hx => hx, ⟨[], by simp⟩, fun x hx => hx, hI1, hI2⟩
      · rw [if_neg hp1]
        by_cases hp2 : d.name ∈ st.processing
        · rw [if_pos hp2]
          refine ⟨hfo, by simp [placeholderInsert], ?_, ?_, ?_, ?_, ?_⟩
          · intro x hx
            simp [placeholderInsert, hx]
          · exact ⟨[.structIns d.name true], rfl⟩
          · intro x hx
            rcases hx with hx | hx
            · exact Or.inl (by simp [placeholderInsert, hx])
            · by_cases hxd : x = d.name
              · exact Or.inl (by simp [placeholderInsert, hxd])
              · refine Or.inr ?_
                show x ∈ (placeholderInsert st d).processing.erase d.name
                simp only [placeholderInsert]
                exact (List.mem_erase_of_ne hxd).mpr hx
          · intro n hn
            show n ∈ tableNames { placeholderInsert st d with
              processed := d.name :: (placeholderInsert st d).processed,
              processing := (placeholderInsert st d).processing.erase d.name }
            have hn2 : n ∈ d.name :: st.processed := hn
            have htn : tableNames { placeholderInsert st d with
                processed := d.name :: (placeholderInsert st d).processed,
                processing := (placeholderInsert st d).processing.erase d.name }
                = tableNames st ++ [d.name] := by
              simp [tableNames, placeholderInsert, evName]
            rw [htn]
            rcases List.mem_cons.mp hn2 with h1 | h2
            · simp [h1]
            · exact List.mem_append.mpr (Or.inl (hI1 n h2))
          · show orderOK defs (st.events ++ [.structIns d.name true])
            apply orderOK_append_nonnormal defs _ _ hI2
            intro ev hev n hcon
            rcases List.mem_cons.mp hev with h1 | h2
            · subst h1
              injection hcon with ha hb
              exact Bool.noConfusion hb
            · simp at h2
        · rw [if_neg hp2]
          have hdname : d.name ∈ defs.map SDef.name := List.mem_map_of_mem _ hd
          have hms1 : stMeasure defs { st with processing := d.name :: st.processing }
              < fuel := by
            have h1 := stMeasure_processing_lt defs st d.name hdname hp1 hp2
            omega
          have foldFacts : ∀ (ds : List String) (A : StState),
              stMeasure defs A < fuel → A.fuelOut = false → processedInTable A →
              orderOK defs A.events →
              (ds.foldl (fun st3 depName =>
                  match defs.find? (fun s => s.name = depName) with
                  | some depDef => processStruct defs fuel depDef st3
                  | none => st3) A).fuelOut = false
              ∧ (∀ x, x ∈ A.processed → x ∈ (ds.foldl (fun st3 depName =>
                  match defs.find? (fun s => s.name = depName) with
                  | some depDef => processStruct defs fuel depDef st3
                  | none => st3) A).processed)
              ∧ (∃ t, (ds.foldl (fun st3 depName =>
                  match defs.find? (fun s => s.name = depName) with
                  | some depDef => processStruct defs fuel depDef st3
                  | none => st3) A).events = A.events ++ t)
              ∧ (∀ x, (x ∈ A.processed ∨ x ∈ A.processing) →
                  (x ∈ (ds.foldl (fun st3 depName =>
                    match defs.find? (fun s => s.name = depName) with
                    | some depDef => processStruct defs fuel depDef st3
                    | none => st3) A).processed
                  ∨ x ∈ (ds.foldl (fun st3 depName =>
                    match defs.find? (fun s => s.name = depName) with
                    | some depDef => processStruct defs fuel depDef st3
                    | none => st3) A).processing))
              ∧ processedInTable (ds.foldl (fun st3 depName =>
                  match defs.find? (fun s => s.name = depName) with
                  | some depDef => processStruct defs fuel depDef st3
                  | none => st3) A)
              ∧ orderOK defs (ds.foldl (fun st3 depName =>
                  match defs.find? (fun s => s.name = depName) with
                  | some depDef => processStruct defs fuel depDef st3
                  | none => st3) A).events
              ∧ stMeasure defs (ds.foldl (fun st3 depName =>
                  match defs.find? (fun s => s.name = depName) with
                  | some depDef => processStruct defs fuel depDef st3
                  | none => st3) A) ≤ stMeasure defs A
              ∧ (∀ dep ∈ ds, ∀ ddef, defs.find? (fun s => s.name = dep) = some ddef →
                  dep ∈ (ds.foldl (fun st3 depName =>
                    match defs.find? (fun s => s.name = depName) with
                    | some depDef => processStruct defs fuel depDef st3
                    | none => st3) A).processed) := by
            intro ds
            induction ds with
            | nil =>
                intro A _ hfoA hI1A hI2A
                refine ⟨hfoA, fun x hx => hx, ⟨[], by simp⟩, fun x hx => hx,
                  hI1A, hI2A, le_refl _, ?_⟩
                intro dep hdep
                simp at hdep
            | cons dep ds2 ihds =>
                intro A hmsA hfoA hI1A hI2A
                simp only [List.foldl_cons]
                cases hfind : defs.find? (fun s => s.name = dep) with
                | none =>
                    obtain ⟨k1, k2, k3, k4, k5, k6, k7, k8⟩ :=
                      ihds A hmsA hfoA hI1A hI2A
                    refine ⟨k1, k2, k3, k4, k5, k6, k7, ?_⟩
                    intro dep2 hdep2 ddef hfind2
                    rcases List.mem_cons.mp hdep2 with h1 | h2
                    · subst h1
                      rw [hfind] at hfind2
                      exact Option.noConfusion hfind2
                    · exact k8 dep2 h2 ddef hfind2
                | some ddef =>
                    have hddef_mem : ddef ∈ defs := List.mem_of_find?_eq_some hfind
                    have hddef_name : ddef.name = dep := by
                      have h2 := List.find?_some hfind
                      simpa using h2
                    obtain ⟨g1, g2, g3, g4, g5, g6, g7⟩ :=
                      ih ddef A hddef_mem hmsA hfoA hI1A hI2A
                    have hmsA2 : stMeasure defs (processStruct defs fuel ddef A)
                        ≤ stMeasure defs A := stMeasure_mono defs A _ g5
                    obtain ⟨k1, k2, k3, k4, k5, k6, k7, k8⟩ :=
                      ihds (processStruct defs fuel ddef A) (by omega) g1 g6 g7
                    refine ⟨k1, ?_, ?_, ?_, k5, k6, ?_, ?_⟩
                    · intro x hx
                      exact k2 x (g3 x hx)
                    · obtain ⟨t1, ht1⟩ := g4
                      obtain ⟨t2, ht2⟩ := k3
                      exact ⟨t1 ++ t2, by rw [ht2, ht1, List.append_assoc]⟩
                    · intro x hx
                      exact k4 x (g5 x hx)
                    · exact le_trans k7 hmsA2
                    · intro dep2 hdep2 ddef2 hfind2
                      rcases List.mem_cons.mp hdep2 with h1 | h2
                      · subst h1
                        have hd2 : dep2 ∈ (processStruct defs fuel ddef A).processed :=
                          hddef_name ▸ g2
                        exact k2 dep2 hd2
                      · exact k8 dep2 h2 ddef2 hfind2
          obtain ⟨k1, k2, k3, k4, k5, k6, k7, k8⟩ :=
            foldFacts (getStructDependencies d)
              { st with processing := d.name :: st.processing } hms1 hfo hI1 hI2
          set F := (getStructDependencies d).foldl (fun st3 depName =>
              match defs.find? (fun s : SDef => s.name = depName) with
              | some depDef => processStruct defs fuel depDef st3
              | none => st3) { st with processing := d.name :: st.processing } with hFdef
          obtain ⟨opq, hni, hopq⟩ := normalInserts_decomp F d
          obtain ⟨tf, htf⟩ := k3
          have k1F : F.fuelOut = false := k1
          have k2F : ∀ x, x ∈ st.processed → x ∈ F.processed := k2
          have htfF : F.events = st.events ++ tf := htf
          have k4F : ∀ x, (x ∈ st.processed ∨ x ∈ d.name :: st.processing) →
              (x ∈ F.processed ∨ x ∈ F.processing) := k4
          have k5F : ∀ n, n ∈ F.processed → n ∈ F.events.map evName := k5
          have k6F : orderOK defs F.events := k6
          have k8F : ∀ dep ∈ getStructDependencies d,
              ∀ ddef, defs.find? (fun s : SDef => s.name = dep) = some ddef →
              dep ∈ F.processed := k8
          refine ⟨?_, ?_, ?_, ?_, ?_, ?_, ?_⟩
          · show (normalInserts F d).fuelOut = false
            rw [hni]
            exact k1F
          · show d.name ∈ d.name :: (normalInserts F d).processed
            simp
          · intro x hx
            show x ∈ d.name :: (normalInserts F d).processed
            rw [hni]
            show x ∈ d.name :: F.processed
            exact List.mem_cons_of_mem _ (k2F x hx)
          · refine ⟨tf ++ opq ++ [.structIns d.name false], ?_⟩
            show (normalInserts F d).events
              = st.events ++ (tf ++ opq ++ [InsEvent.structIns d.name false])
            rw [hni]
            show F.events ++ opq ++ [InsEvent.structIns d.name false]
              = st.events ++ (tf ++ opq ++ [InsEvent.structIns d.name false])
            rw [htfF]
            simp
          · intro x hx
            have hx1 : x ∈ st.processed ∨ x ∈ d.name :: st.processing := by
              rcases hx with hx | hx
              · exact Or.inl hx
              · exact Or.inr (by simp [hx])
            rcases k4F x hx1 with h1 | h2
            · refine Or.inl ?_
              show x ∈ d.name :: (normalInserts F d).processed
              rw [hni]
              show x ∈ d.name :: F.processed
              exact List.mem_cons_of_mem _ h1
            · by_cases hxd : x = d.name
              · refine Or.inl ?_
                show x ∈ d.name :: (normalInserts F d).processed
                simp [hxd]
              · refine Or.inr ?_
                show x ∈ ((normalInserts F d).processing).erase d.name
                rw [hni]
                show x ∈ F.processing.erase d.name
                exact (List.mem_erase_of_ne hxd).mpr h2
          · intro n hn
            have hn2 : n ∈ d.name :: (normalInserts F d).processed := hn
            show n ∈ (normalInserts F d).events.map evName
            rw [hni]
            show n ∈ (F.events ++ opq ++ [InsEvent.structIns d.name false]).map evName
            rcases List.mem_cons.mp hn2 with h1 | h2
            · subst h1
              simp [evName]
            · have h3 : n ∈ F.processed := by
                have hh : n ∈ (normalInserts F d).processed := h2
                rw [hni] at hh
                exact hh
              have h5 := k5F n h3
              simp only [List.map_append, List.mem_append]
              exact Or.inl (Or.inl h5)
          · show orderOK defs (normalInserts F d).events
            rw [hni]
            show orderOK defs (F.events ++ opq ++ [InsEvent.structIns d.name false])
            apply orderOK_snoc_normal defs hnodup _ d hd
            · apply orderOK_append_nonnormal defs _ _ k6F
              intro ev hevm n hcon
              obtain ⟨n2, hn2⟩ := hopq ev hevm
              rw [hn2] at hcon
              exact InsEvent.noConfusion hcon
            · intro B hB hBdef
              have hfind : ∃ ddef, defs.find? (fun s : SDef => s.name = B) = some ddef := by
                have hsome : (defs.find? (fun s : SDef => s.name = B)).isSome := by
                  rw [List.find?_isSome]
                  obtain ⟨A0, hA0, hA0n⟩ := List.mem_map.mp hBdef
                  exact ⟨A0, hA0, by simp [hA0n]⟩
                exact Option.isSome_iff_exists.mp hsome
              obtain ⟨ddef, hddef⟩ := hfind
              have hBproc := k8F B hB ddef hddef
              have hBtable := k5F B hBproc
              obtain ⟨ev, hev2, hevn⟩ := List.mem_map.mp hBtable
              exact ⟨ev, List.mem_append.mpr (Or.inl hev2), hevn⟩

theorem processRank (defs : List SDef) (rank : String → Nat)
    (hrank : ∀ A, A ∈ defs → ∀ B, B ∈ getStructDependencies A →
      B ∈ defs.map SDef.name → rank B < rank A.name) :
    ∀ (fuel : Nat) (d : SDef) (st : StState), d ∈ defs →
    st.processing.Nodup →
    (∀ x, x ∈ st.processing → rank d.name < rank x) →
    (∀ x, x ∈ (processStruct defs fuel d st).processing → x ∈ st.processing)
    ∧ (processStruct defs fuel d st).processing.Nodup
    ∧ ∃ t, (processStruct defs fuel d st).events = st.events ++ t
        ∧ ∀ n, InsEvent.structIns n true ∉ t := by
  intro fuel
  induction fuel with
  | zero =>
      intro d st _ hnd _
      rw [processStruct]
      exact ⟨fun x hx => hx, hnd, ⟨[], by simp, by simp⟩⟩
  | succ fuel ih =>
      intro d st hd hnd hrk
      rw [processStruct]
      by_cases hp1 : d.name ∈ st.processed
      · rw [if_pos hp1]
        exact ⟨fun x hx => hx, hnd, ⟨[], by simp, by simp⟩⟩
      · rw [if_neg hp1]
        by_cases hp2 : d.name ∈ st.processing
        · exact absurd (hrk d.name hp2) (lt_irrefl _)
        · rw [if_neg hp2]
          have hfold : ∀ (ds : List String),
              (∀ dep, dep ∈ ds → ∀ ddef, ddef ∈ defs → ddef.name = dep →
                rank dep < rank d.name) →
              ∀ (A : StState), A.processing.Nodup →
              (∀ x, x ∈ A.processing → x ∈ d.name :: st.processing) →
              (∀ x, x ∈ (ds.foldl (fun st3 depName =>
                  match defs.find? (fun s : SDef => s.name = depName) with
                  | some depDef => processStruct defs fuel depDef st3
                  | none => st3) A).processing → x ∈ A.processing)
              ∧ (ds.foldl (fun st3 depName =>
                  match defs.find? (fun s : SDef => s.name = depName) with
                  | some depDef => processStruct defs fuel depDef st3
                  | none => st3) A).processing.Nodup
              ∧ ∃ t, (ds.foldl (fun st3 depName =>
                  match defs.find? (fun s : SDef => s.name = depName) with
                  | some depDef => processStruct defs fuel depDef st3
                  | none => st3) A).events = A.events ++ t
                  ∧ ∀ n, InsEvent.structIns n true ∉ t := by
            intro ds
            induction ds with
            | nil =>
                intro _ A hndA _
                exact ⟨fun x hx => hx, hndA, ⟨[], by simp, by simp⟩⟩
            | cons dep ds2 ihds =>
                intro hdr A hndA hsubA
                simp only [List.foldl_cons]
                cases hfind : defs.find? (fun s : SDef => s.name = dep) with
                | none =>
                    exact ihds (fun dep2 h2 => hdr dep2 (by simp [h2])) A hndA hsubA
                | some ddef =>
                    have hddef_mem : ddef ∈ defs := List.mem_of_find?_eq_some hfind
                    have hddef_name : ddef.name = dep := by
                      have h2 := List.find?_some hfind
                      simpa using h2
                    have hrkdep : ∀ x, x ∈ A.processing → rank ddef.name < rank x := by
                      intro x hx
                      have hrdep : rank dep < rank d.name :=
                        hdr dep (by simp) ddef hddef_mem hddef_name
                      rcases List.mem_cons.mp (hsubA x hx) with h1 | h2
                      · rw [hddef_name, h1]
                        exact hrdep
                      · have := hrk x h2
                        rw [hddef_name]
                        omega
                    obtain ⟨g1, g2, g3⟩ := ih ddef A hddef_mem hndA hrkdep
                    obtain ⟨k1, k2, k3⟩ :=
                      ihds (fun dep2 h2 => hdr dep2 (by simp [h2]))
                        (processStruct defs fuel ddef A) g2
                        (fun x hx => hsubA x (g1 x hx))
                    refine ⟨?_, k2, ?_⟩
                    · intro x hx
                      exact g1 x (k1 x hx)
                    · obtain ⟨t1, ht1, hn1⟩ := g3
                      obtain ⟨t2, ht2, hn2⟩ := k3
                      refine ⟨t1 ++ t2, ?_, ?_⟩
                      · rw [ht2, ht1, List.append_assoc]
                      · intro n hn
                        rcases List.mem_append.mp hn with h1 | h2
                        · exact hn1 n h1
                        · exact hn2 n h2
          have hdeprank : ∀ dep, dep ∈ getStructDependencies d →
              ∀ ddef, ddef ∈ defs → ddef.name = dep → rank dep < rank d.name := by
            intro dep hdep ddef hddef hname
            have hdepdef : dep ∈ defs.map SDef.name := by
              rw [← hname]
              exact List.mem_map_of_mem _ hddef
            exact hrank d hd dep hdep hdepdef
          obtain ⟨k1, k2, k3⟩ := hfold (getStructDependencies d) hdeprank
            { st with processing := d.name :: st.processing }
            (by simp [hp2, hnd]) (fun x hx => hx)
          set F := (getStructDependencies d).foldl (fun st3 depName =>
              match defs.find? (fun s : SDef => s.name = depName) with
              | some depDef => processStruct defs fuel depDef st3
              | none => st3) { st with processing := d.name :: st.processing } with hFdef
          obtain ⟨opq, hni, hopq⟩ := normalInserts_decomp F d
          obtain ⟨tf, htf, hnpf⟩ := k3
          have k1F : ∀ x, x ∈ F.processing → x ∈ d.name :: st.processing := k1
          have k2F : F.processing.Nodup := k2
          have htfF : F.events = st.events ++ tf := htf
          refine ⟨?_, ?_, ?_⟩
          · intro x hx
            have hx2 : x ∈ ((normalInserts F d).processing).erase d.name := hx
            rw [hni] at hx2
            have hx3 : x ∈ F.processing.erase d.name := hx2
            have hxne : x ≠ d.name ∧ x ∈ F.processing :=
              (List.Nodup.mem_erase_iff k2F).mp hx3
            rcases List.mem_cons.mp (k1F x hxne.2) with h1 | h2
            · exact absurd h1 hxne.1
            · exact h2
          · show (((normalInserts F d).processing).erase d.name).Nodup
            rw [hni]
            show (F.processing.erase d.name).Nodup
            exact List.Nodup.erase _ k2F
          · refine ⟨tf ++ opq ++ [.structIns d.name false], ?_, ?_⟩
            · show (normalInserts F d).events
                = st.events ++ (tf ++ opq ++ [InsEvent.structIns d.name false])
              rw [hni]
              show F.events ++ opq ++ [InsEvent.structIns d.name false]
                = st.events ++ (tf ++ opq ++ [InsEvent.structIns d.name false])
              rw [htfF]
              simp
            · intro n hn
              rcases List.mem_append.mp hn with h1 | h2
              · rcases List.mem_append.mp h1 with h1a | h1b
                · exact hnpf n h1a
                · obtain ⟨n2, hn2⟩ := hopq _ h1b
                  exact InsEvent.noConfusion hn2
              · simp at h2

theorem orderOK_nil (defs : List SDef) : orderOK defs [] := by
  intro A hA pre post hdec B hB hBdef
  exfalso
  have hlen := congrArg List.length hdec
  simp at hlen
  omega

theorem processAll_facts (defs : List SDef)
    (hnodup : (defs.map SDef.name).Nodup) :
    (processAll defs).fuelOut = false ∧ orderOK defs (processAll defs).events := by
  have key : ∀ (l : List SDef) (st : StState), (∀ d, d ∈ l → d ∈ defs) →
      st.fuelOut = false → processedInTable st → orderOK defs st.events →
      (l.foldl (fun st2 d => processStruct defs (defs.length + 1) d st2) st).fuelOut
          = false
      ∧ processedInTable
          (l.foldl (fun st2 d => processStruct defs (defs.length + 1) d st2) st)
      ∧ orderOK defs
          (l.foldl (fun st2 d => processStruct defs (defs.length + 1) d st2) st).events := by
    intro l
    induction l with
    | nil =>
        intro st _ hfo hI1 hI2
        exact ⟨hfo, hI1, hI2⟩
    | cons d l2 ihl =>
        intro st hmem hfo hI1 hI2
        simp only [List.foldl_cons]
        have hms : stMeasure defs st < defs.length + 1 := by
          have := stMeasure_le defs st
          omega
        obtain ⟨g1, _, _, _, _, g6, g7⟩ := processOrder defs hnodup (defs.length + 1)
          d st (hmem d (by simp)) hms hfo hI1 hI2
        exact ihl _ (fun d2 h2 => hmem d2 (by simp [h2])) g1 g6 g7
  have h0 := key defs initState (fun d h => h) rfl
    (fun n hn => by simp [initState] at hn) (orderOK_nil defs)
  exact ⟨h0.1, h0.2.2⟩

theorem processAll_rank (defs : List SDef) (rank : String → Nat)
    (hrank : ∀ A, A ∈ defs → ∀ B, B ∈ getStructDependencies A →
      B ∈ defs.map SDef.name → rank B < rank A.name) :
    ∀ n, InsEvent.structIns n true ∉ (processAll defs).events := by
  have key : ∀ (l : List SDef) (st : StState), (∀ d, d ∈ l → d ∈ defs) →
      st.processing = [] →
      (∀ n, InsEvent.structIns n true ∉ st.events) →
      (l.foldl (fun st2 d => processStruct defs (defs.length + 1) d st2) st).processing
          = []
      ∧ (∀ n, InsEvent.structIns n true ∉
          (l.foldl (fun st2 d => processStruct defs (defs.length + 1) d st2) st).events) := by
    intro l
    induction l with
    | nil =>
        intro st _ hpr hev
        exact ⟨hpr, hev⟩
    | cons d l2 ihl =>
        intro st hmem hpr hev
        simp only [List.foldl_cons]
        obtain ⟨g1, g2, g3⟩ := processRank defs rank hrank (defs.length + 1) d st
          (hmem d (by simp)) (by rw [hpr]; exact List.nodup_nil)
          (by intro x hx; rw [hpr] at hx; simp at hx)
        refine ihl _ (fun d2 h2 => hmem d2 (by simp [h2])) ?_ ?_
        · apply List.eq_nil_iff_forall_not_mem.mpr
          intro x hx
          have := g1 x hx
          rw [hpr] at this
          simp at this
        · obtain ⟨t, ht, hnt⟩ := g3
          intro n hn
          rw [ht] at hn
          rcases List.mem_append.mp hn with h1 | h2
          · exact hev n h1
          · exact hnt n h2
  intro n
  exact (key defs initState (fun d h => h) rfl (fun n2 hn2 => by simp [initState] at hn2)).2 n

end Structs

end Noxy

/-! ## Claims -/

namespace Noxy

namespace Claims

/-- Claim C1: for a `use M select f` statement naming an exported function
`f`, the import table after resolution holds exactly the previously
imported names together with the transitive dependency closure of `f` —
`f` itself plus every exported symbol reachable from it along
analyzed-dependency edges (identifiers, calls, struct constructors, array
accesses and other child nodes, minus built-ins and parameters) — and no
other exported symbol. -/
theorem claimC1 (M : List (String × Imports.SymInfo)) (f : String)
    (imported tbl : List (String × Imports.SymInfo))
    (hf : (Imports.msLookup M f).isSome)
    (h : Imports.handleUseSelect M [f] imported = .ok tbl) (k : String) :
    k ∈ tbl.map Prod.fst ↔ k ∈ imported.map Prod.fst ∨ Imports.Reach M f k :=
  Imports.handleUseSelect_single_keys M f imported tbl hf h k

/-- Witness for C1: importing `g` from the two-function example module
brings in `h`, which `g` calls. -/
theorem claimC1_witness :
    "h" ∈ Examples.exTable.map Prod.fst
      ↔ "h" ∈ ([] : List (String × Imports.SymInfo)).map Prod.fst
        ∨ Imports.Reach Examples.exModule "g" "h" :=
  claimC1 Examples.exModule "g" [] Examples.exTable rfl rfl "h"

/-- Claim C2: tracking the top-level allocations `ps` in order stores each
pointer exactly once at the then-current counter index, the counter ends
at `ps.length`, and the emitted cleanup loop frees exactly the tracked
pointers in order — so each distinct pointer is freed exactly once. -/
theorem claimC2 (ps : List Nat) (h1 : ps.Nodup) (h2 : ps.length ≤ 100) :
    (Mem.trackAll Mem.ledgerInit ps).count = ps.length
    ∧ (∀ k, ∀ hk : k < ps.length,
        (Mem.trackAll Mem.ledgerInit ps).slots k = ps.get ⟨k, hk⟩)
    ∧ Mem.cleanupFrees (Mem.trackAll Mem.ledgerInit ps) = ps
    ∧ (∀ p, p ∈ ps → (Mem.cleanupFrees (Mem.trackAll Mem.ledgerInit ps)).count p = 1) := by
  refine ⟨?_, ?_, ?_, ?_⟩
  · rw [Mem.trackAll_count]
    simp [Mem.ledgerInit]
  · intro k hk
    have hx := Mem.trackAll_slots_hi Mem.ledgerInit ps k hk
    simpa [Mem.ledgerInit] using hx
  · exact Mem.cleanupFrees_trackAll ps
  · intro p hp
    rw [Mem.cleanupFrees_trackAll]
    exact List.count_eq_one_of_mem h1 hp

/-- Witness for C2 at the concrete allocation sequence `[5, 7]`. -/
theorem claimC2_witness :
    (Mem.trackAll Mem.ledgerInit [5, 7]).count = ([5, 7] : List Nat).length
    ∧ (∀ k, ∀ hk : k < ([5, 7] : List Nat).length,
        (Mem.trackAll Mem.ledgerInit [5, 7]).slots k = ([5, 7] : List Nat).get ⟨k, hk⟩)
    ∧ Mem.cleanupFrees (Mem.trackAll Mem.ledgerInit [5, 7]) = [5, 7]
    ∧ (∀ p, p ∈ ([5, 7] : List Nat) →
        (Mem.cleanupFrees (Mem.trackAll Mem.ledgerInit [5, 7])).count p = 1) :=
  claimC2 [5, 7] (by decide) (by decide)

/-- Claim C3: lowering `+` with exactly one string operand fails with an
error (in either operand order, against both non-string value shapes),
while lowering `+` on two strings succeeds with a fresh buffer of size
`strlen a + strlen b + 1` holding the null-terminated concatenation,
registered in the allocation ledger, all previously existing buffers
untouched. -/
theorem claimC3 (heap : StrPlus.Heap) (led : Mem.LedgerSt) (a b : List Nat)
    (n x : Int) :
    (∃ m, StrPlus.genPlus heap led (.str a) (.i64 n) = .error m)
    ∧ (∃ m, StrPlus.genPlus heap led (.i64 n) (.str a) = .error m)
    ∧ (∃ m, StrPlus.genPlus heap led (.str a) (.f64 x) = .error m)
    ∧ (∃ m, StrPlus.genPlus heap led (.f64 x) (.str a) = .error m)
    ∧ (∃ out, StrPlus.genPlus heap led (.str a) (.str b) = .ok out
        ∧ out.res = .concatPtr heap.bufs.length
        ∧ StrPlus.bufAt out.heap heap.bufs.length
            = StrPlus.cstr a ++ StrPlus.cstr b ++ [0]
        ∧ (StrPlus.bufAt out.heap heap.bufs.length).length
            = StrPlus.strlenM a + StrPlus.strlenM b + 1
        ∧ out.ledger = Mem.trackAllocation led heap.bufs.length
        ∧ (∀ q, q < heap.bufs.length →
            StrPlus.bufAt out.heap q = StrPlus.bufAt heap q)) := by
  obtain ⟨m1, ha1, ha2⟩ := StrPlus.genPlus_str_nonstr heap led a (.i64 n) rfl
  obtain ⟨m2, hb1, hb2⟩ := StrPlus.genPlus_str_nonstr heap led a (.f64 x) rfl
  refine ⟨⟨m1, ha1⟩, ⟨m1, ha2⟩, ⟨m2, hb1⟩, ⟨m2, hb2⟩, ?_⟩
  refine ⟨_, StrPlus.genPlus_str_str heap led a b, rfl,
    StrPlus.concat_bufAt heap a b, ?_, rfl, ?_⟩
  · rw [StrPlus.concat_bufAt heap a b]
    simp [StrPlus.strlenM]
    omega
  · intro q hq
    exact StrPlus.concat_preserves heap a b q hq

/-- Witness for C3 on the empty heap with the one-byte strings `[65]`
and `[66]`. -/
theorem claimC3_witness :
    (∃ m, StrPlus.genPlus ⟨[]⟩ Mem.ledgerInit (.str [65]) (.i64 0) = .error m)
    ∧ (∃ m, StrPlus.genPlus ⟨[]⟩ Mem.ledgerInit (.i64 0) (.str [65]) = .error m)
    ∧ (∃ m, StrPlus.genPlus ⟨[]⟩ Mem.ledgerInit (.str [65]) (.f64 0) = .error m)
    ∧ (∃ m, StrPlus.genPlus ⟨[]⟩ Mem.ledgerInit (.f64 0) (.str [65]) = .error m)
    ∧ (∃ out, StrPlus.genPlus ⟨[]⟩ Mem.ledgerInit (.str [65]) (.str [66]) = .ok out
        ∧ out.res = .concatPtr 0
        ∧ StrPlus.bufAt out.heap 0 = StrPlus.cstr [65] ++ StrPlus.cstr [66] ++ [0]
        ∧ (StrPlus.bufAt out.heap 0).length
            = StrPlus.strlenM [65] + StrPlus.strlenM [66] + 1
        ∧ out.ledger = Mem.trackAllocation Mem.ledgerInit 0
        ∧ (∀ q, q < 0 → StrPlus.bufAt out.heap q = StrPlus.bufAt ⟨[]⟩ q)) :=
  claimC3 ⟨[]⟩ Mem.ledgerInit [65] [66] 0 0

/-- Claim C4: processing any duplicate-free set of struct definitions
never hits the recursion bound, and whenever a struct `A` is registered
through the normal (non-placeholder) path every defined by-value
dependency `B` of `A` already has an earlier entry in the struct table;
moreover, if the value-field dependency relation is acyclic (witnessed by
a rank function) no struct is ever registered through the placeholder
fallback. -/
theorem claimC4 (defs : List Structs.SDef)
    (hnodup : (defs.map Structs.SDef.name).Nodup) :
    (Structs.processAll defs).fuelOut = false
    ∧ Structs.orderOK defs (Structs.processAll defs).events
    ∧ (∀ rank : String → Nat,
        (∀ A, A ∈ defs → ∀ B, B ∈ Structs.getStructDependencies A →
          B ∈ defs.map Structs.SDef.name → rank B < rank A.name) →
        ∀ n, Structs.InsEvent.structIns n true ∉ (Structs.processAll defs).events) := by
  obtain ⟨h1, h2⟩ := Structs.processAll_facts defs hnodup
  exact ⟨h1, h2, fun rank hr => Structs.processAll_rank defs rank hr⟩

/-- Witness for C4 on the two-struct example where `A` holds a by-value
`B` field. -/
theorem claimC4_witness :
    (Structs.processAll Examples.exDefs).fuelOut = false
    ∧ Structs.orderOK Examples.exDefs (Structs.processAll Examples.exDefs).events
    ∧ (∀ rank : String → Nat,
        (∀ A, A ∈ Examples.exDefs → ∀ B, B ∈ Structs.getStructDependencies A →
          B ∈ Examples.exDefs.map Structs.SDef.name → rank B < rank A.name) →
        ∀ n, Structs.InsEvent.structIns n true
          ∉ (Structs.processAll Examples.exDefs).events) :=
  claimC4 Examples.exDefs (by decide)

/-- Counterexample to claim C5 as stated: the program
`let x: int ...; let x: string ...` reaches no error — the duplicate is
skipped by `declared_globals` before `_declare_global_variable` can
compare the conflicting types. -/
theorem claimC5_counterexample : ¬ Decl.ClaimC5Prop := by
  intro h
  obtain ⟨msg, hmsg⟩ := h [] [] [] "x" NTy.intT NTy.stringT (by decide)
  have hok : Decl.declPhase
      (([] : List Decl.GStmt) ++ Decl.GStmt.glet "x" (some NTy.intT)
        :: ([] : List Decl.GStmt) ++ Decl.GStmt.glet "x" (some NTy.stringT)
        :: ([] : List Decl.GStmt))
      = .ok (["x"], ⟨["x"], [("x", NTy.intT)]⟩) := rfl
  exact Except.noConfusion (hok.symm.trans hmsg)

/-- Claim C5 (amended): a second top-level declaration of an
already-declared global identifier is silently skipped, whatever its
declared type — the declaration phase behaves as if the duplicate
statement were absent, and in particular never reports the
conflicting-type error. -/
theorem claimC5_amended (pre post : List Decl.GStmt) (name : String)
    (ty : Option NTy) (d : List String) (st : Decl.DeclSt)
    (hpre : Decl.declLoop pre [] Decl.declInit = .ok (d, st)) (hmem : name ∈ d) :
    Decl.declPhase (pre ++ .glet name ty :: post) = Decl.declPhase (pre ++ post) :=
  Decl.declPhase_skip_duplicate pre post name ty d st hpre hmem

/-- Witness for the amended C5: redeclaring `x` as a string after an int
declaration changes nothing. -/
theorem claimC5_witness :
    Decl.declPhase ([Decl.GStmt.glet "x" (some NTy.intT)]
        ++ Decl.GStmt.glet "x" (some NTy.stringT) :: [])
      = Decl.declPhase ([Decl.GStmt.glet "x" (some NTy.intT)] ++ []) :=
  claimC5_amended [Decl.GStmt.glet "x" (some NTy.intT)] [] "x" (some NTy.stringT)
    ["x"] ⟨["x"], [("x", NTy.intT)]⟩ rfl (by decide)

/-- Counterexample to claim C6 as stated: the expression text
`a\x7b1:2\x7db` has no top-level colon, yet `_read_fstring` splits it at
the nested colon and produces a format specifier. -/
theorem claimC6_counterexample : ¬ Lex.ClaimC6Prop := by
  intro h
  have hx := h Examples.exFExpr (by decide)
  exact absurd hx (by decide)

/-- Claim C6 (amended): the expression scan of `_read_fstring` is
depth-aware — it consumes exactly a brace-balanced expression text up to
the matching closing brace — but the subsequent format-specifier split is
not: the scanned text is split at its first colon wherever that colon
sits, the stripped left part becoming the expression source and the
stripped non-empty right part the format specifier. -/
theorem claimC6_amended (src e rest l r : List Char) (s : Lex.LexSt)
    (hdrop : src.drop s.pos = e ++ '}' :: rest)
    (hbal : Lex.balancedAt e 0 = true)
    (hsplit : Lex.pyStrip e = l ++ ':' :: r) (hl : ':' ∉ l) :
    (∃ s2, Lex.scanExpr src s 1 [] = (e, s2, 0)
        ∧ s2.pos = s.pos + e.length + 1)
    ∧ Lex.fstringExprPart e =
        (if Lex.pyStrip r = [] then Lex.FPart.expr (Lex.pyStrip l)
         else Lex.FPart.exprFormat (Lex.pyStrip l) (Lex.pyStrip r)) := by
  constructor
  · obtain ⟨s2, hs1, hs2⟩ := Lex.scanExpr_spec src e 0 s [] rest hdrop hbal
    exact ⟨s2, hs1, hs2⟩
  · exact Lex.fstringExprPart_split e l r hsplit hl

/-- Witness for the amended C6 on the nested-colon example text. -/
theorem claimC6_witness :
    (∃ s2, Lex.scanExpr Examples.exFSrc ⟨0, 1, 1⟩ 1 [] = (Examples.exFExpr, s2, 0)
        ∧ s2.pos = (⟨0, 1, 1⟩ : Lex.LexSt).pos + Examples.exFExpr.length + 1)
    ∧ Lex.fstringExprPart Examples.exFExpr =
        (if Lex.pyStrip ['2', '}', 'b'] = [] then
          Lex.FPart.expr (Lex.pyStrip ['a', '{', '1'])
         else Lex.FPart.exprFormat (Lex.pyStrip ['a', '{', '1'])
            (Lex.pyStrip ['2', '}', 'b'])) :=
  claimC6_amended Examples.exFSrc Examples.exFExpr [] ['a', '{', '1']
    ['2', '}', 'b'] ⟨0, 1, 1⟩ (by decide) (by decide) (by decide) (by decide)

/-- Counterexample to claim C7 as stated: lexing the two-line string
literal `"a\nb"` from line 1 produces a token whose recorded line is 2 —
the line of the closing quote — not the line of the first character of
the lexeme. -/
theorem claimC7_counterexample : ¬ Lex.ClaimC7Prop := by
  intro h
  have heval : Lex.readString Examples.exStrSrc ⟨0, 1, 1⟩
      = .ok (⟨['a', '\n', 'b'], 2, 1⟩, ⟨5, 2, 3⟩) := by
    simp [Examples.exStrSrc, Lex.readString, Lex.readStringLoop, Lex.advance]
    rfl
  have hx := (h Examples.exStrSrc ⟨0, 1, 1⟩ ⟨['a', '\n', 'b'], 2, 1⟩
    ⟨5, 2, 3⟩ heval).1
  exact absurd hx (by decide)

/-- Claim C7 (amended, for the `_read_string` path): the token's recorded
column is the column of the opening quote, but its recorded line is the
line reached after consuming the literal — the starting line plus the
number of newline characters the lexeme spans. -/
theorem claimC7_amended (src : List Char) (s : Lex.LexSt) (tok : Lex.STok)
    (s2 : Lex.LexSt) (h : Lex.readString src s = .ok (tok, s2)) :
    tok.column = s.col ∧ tok.line = s.line + Lex.countNL src s.pos s2.pos
    ∧ s.pos < s2.pos :=
  Lex.readString_spec src s tok s2 h

/-- Witness for the amended C7 on the two-line string literal. -/
theorem claimC7_witness :
    (⟨['a', '\n', 'b'], 2, 1⟩ : Lex.STok).column = (⟨0, 1, 1⟩ : Lex.LexSt).col
    ∧ (⟨['a', '\n', 'b'], 2, 1⟩ : Lex.STok).line
        = (⟨0, 1, 1⟩ : Lex.LexSt).line
          + Lex.countNL Examples.exStrSrc (⟨0, 1, 1⟩ : Lex.LexSt).pos
              (⟨5, 2, 3⟩ : Lex.LexSt).pos
    ∧ (⟨0, 1, 1⟩ : Lex.LexSt).pos < (⟨5, 2, 3⟩ : Lex.LexSt).pos :=
  claimC7_amended Examples.exStrSrc ⟨0, 1, 1⟩ ⟨['a', '\n', 'b'], 2, 1⟩ ⟨5, 2, 3⟩
    (by simp [Examples.exStrSrc, Lex.readString, Lex.readStringLoop, Lex.advance]
        rfl)

/-- Claim C8: a `use ... select` statement requesting any symbol that the
module does not export makes import processing fail with an error — the
missing symbol is never silently skipped. -/
theorem claimC8 (M : List (String × Imports.SymInfo)) (selected : List String)
    (imported : List (String × Imports.SymInfo)) (s : String)
    (hs : s ∈ selected) (hmiss : (Imports.msLookup M s).isNone) :
    ∃ msg, Imports.handleUseSelect M selected imported = .error msg :=
  Imports.handleUseSelect_missing M selected imported s hs hmiss

/-- Witness for C8: selecting an absent symbol from the example module
errors out. -/
theorem claimC8_witness :
    ∃ msg, Imports.handleUseSelect Examples.exModule ["missing"] [] = .error msg :=
  claimC8 Examples.exModule ["missing"] [] "missing" (by decide) rfl

/-- Claim C9: the lowering of `and` and `or` evaluates both operands
unconditionally — the emitted effect trace is always the left operand's
trace followed by the right operand's, regardless of the left value — and
the result is the bitwise and/or of the two truthified operands. -/
theorem claimC9 (l r : Codegen.LExpr) :
    Codegen.traceL (Codegen.LExpr.binAnd l r)
        = Codegen.traceL l ++ Codegen.traceL r
    ∧ Codegen.valueL (Codegen.LExpr.binAnd l r)
        = .i1 (Codegen.truthify (Codegen.valueL l)
               && Codegen.truthify (Codegen.valueL r))
    ∧ Codegen.traceL (Codegen.LExpr.binOr l r)
        = Codegen.traceL l ++ Codegen.traceL r
    ∧ Codegen.valueL (Codegen.LExpr.binOr l r)
        = .i1 (Codegen.truthify (Codegen.valueL l)
               || Codegen.truthify (Codegen.valueL r)) := by
  have hA : Codegen.evalL (Codegen.LExpr.binAnd l r) []
      = ((Codegen.evalL r (Codegen.evalL l []).1).1,
         .i1 (Codegen.truthify (Codegen.evalL l []).2
              && Codegen.truthify (Codegen.evalL r (Codegen.evalL l []).1).2)) := rfl
  have hO : Codegen.evalL (Codegen.LExpr.binOr l r) []
      = ((Codegen.evalL r (Codegen.evalL l []).1).1,
         .i1 (Codegen.truthify (Codegen.evalL l []).2
              || Codegen.truthify (Codegen.evalL r (Codegen.evalL l []).1).2)) := rfl
  refine ⟨?_, ?_, ?_, ?_⟩
  · show (Codegen.evalL (Codegen.LExpr.binAnd l r) []).1 = _
    rw [hA, Codegen.evalL_log l [], Codegen.evalL_log r]
    simp [Codegen.traceL]
  · show (Codegen.evalL (Codegen.LExpr.binAnd l r) []).2 = _
    rw [hA, Codegen.evalL_log l [], Codegen.evalL_log r]
  · show (Codegen.evalL (Codegen.LExpr.binOr l r) []).1 = _
    rw [hO, Codegen.evalL_log l [], Codegen.evalL_log r]
    simp [Codegen.traceL]
  · show (Codegen.evalL (Codegen.LExpr.binOr l r) []).2 = _
    rw [hO, Codegen.evalL_log l [], Codegen.evalL_log r]

/-- Claim C10: casting a string-typed (i8*) value to int yields the
constant 0 whatever the pointer is — the cast performs no parsing of the
string's contents. -/
theorem claimC10 (p : Nat) : Codegen.genCastToInt (.i8ptr p) = .i64 0 := rfl

end Claims

end Noxy
